import Mathlib

/-!
Verification of the lask task runner (a Deno/TypeScript task-definition and
dispatch engine) against its specification.

The development shallow-embeds the parts of the source that the checked
properties touch:

* a domain `JVal` of JavaScript values (JSON-representable data), with
  JavaScript numbers modelled by `JSNum`: integer-valued finite numbers are
  carried exactly, and the non-finite values `NaN`, `Infinity`, `-Infinity`
  are carried symbolically.  Fractional binary doubles are outside the
  embedding (floating point).  Strings are lists of Unicode scalar values
  (`List Char`); a JavaScript string is a UTF-16 sequence, and every
  well-formed (lone-surrogate-free) such string corresponds to exactly one
  value here.
* a model of `JSON.stringify(value, null, gap)` (ECMA-262 SerializeJSONProperty
  with an all-space gap; the codec in src/DataType/JSON.ts uses gap "  ",
  the dispatcher fallback in src/Lask.ts uses the compact gap "") and of
  `JSON.parse` (recursive descent with an explicit fuel, which the top-level
  entry point instantiates with a proven-sufficient bound).
* the Effect shell runner of src/Effect.ts, the dispatcher stages of
  src/Lask.ts `bite`, the registry update of `task`, the early iteration of
  `bite` kept in the repository (unnamed part_004), the output loop of the
  multi-binding iteration (unnamed part_003), and the YAML schema validator
  of unnamed part_008.
-/

/-- Model of a JavaScript number as it matters for JSON codecs: an exact
integer, or one of the non-finite values.  Fractional doubles are outside the
embedding; integer values are faithful within the safe-integer range. -/
inductive JSNum where
  | int (i : Int)
  | nan
  | posInf
  | negInf
deriving DecidableEq, Repr

mutual

/-- A JavaScript value produced or consumed by the codecs: the JSON data
domain (null, booleans, numbers, strings, arrays, objects with insertion
order). -/
inductive JVal where
  | null
  | bool (b : Bool)
  | num (n : JSNum)
  | str (s : List Char)
  | arr (xs : JArr)
  | obj (kvs : JObj)
deriving DecidableEq, Repr

/-- The element list of a JavaScript array value. -/
inductive JArr where
  | nil
  | cons (hd : JVal) (tl : JArr)
deriving DecidableEq, Repr

/-- The ordered property list of a JavaScript object value. -/
inductive JObj where
  | nil
  | cons (k : List Char) (v : JVal) (tl : JObj)
deriving DecidableEq, Repr

end

/-- Decimal digit character, as emitted by the JavaScript number-to-string
conversion for digits 0-9. -/
def digitChar (d : Nat) : Char :=
  match d with
  | 0 => '0' | 1 => '1' | 2 => '2' | 3 => '3' | 4 => '4'
  | 5 => '5' | 6 => '6' | 7 => '7' | 8 => '8' | _ => '9'

/-- Lowercase hexadecimal digit character, as used by the JSON string escape
\uXXXX emitted for control characters. -/
def hexDigitChar (d : Nat) : Char :=
  match d with
  | 0 => '0' | 1 => '1' | 2 => '2' | 3 => '3' | 4 => '4'
  | 5 => '5' | 6 => '6' | 7 => '7' | 8 => '8' | 9 => '9'
  | 10 => 'a' | 11 => 'b' | 12 => 'c' | 13 => 'd' | 14 => 'e' | _ => 'f'

/-- Decimal rendering of a natural number, most significant digit first
(the integer case of the JavaScript ToString on numbers). -/
def natChars (n : Nat) : List Char :=
  go n []
where
  go (n : Nat) (acc : List Char) : List Char :=
    if h : n < 10 then digitChar n :: acc
    else go (n / 10) (digitChar (n % 10) :: acc)
  termination_by n
  decreasing_by exact Nat.div_lt_self (by omega) (by omega)

/-- Decimal rendering of an integer, with a leading minus sign when
negative. -/
def intChars (i : Int) : List Char :=
  if i < 0 then '-' :: natChars (-i).toNat else natChars i.toNat

/-- Serialization of a JavaScript number inside JSON.stringify: finite
numbers print their decimal form, while NaN and the infinities serialize as
the text null (ECMA-262 SerializeJSONProperty). -/
def numChars (n : JSNum) : List Char :=
  match n with
  | .int i => intChars i
  | .nan => ['n', 'u', 'l', 'l']
  | .posInf => ['n', 'u', 'l', 'l']
  | .negInf => ['n', 'u', 'l', 'l']

/-- Escape of one character inside a JSON string literal, following ECMA-262
QuoteJSONString: quote and backslash get a backslash escape, the named
control characters get their short escapes, the remaining control characters
get a \u00XX escape, and everything else is emitted literally. -/
def escapeChar (c : Char) : List Char :=
  if c = '"' then ['\\', '"']
  else if c = '\\' then ['\\', '\\']
  else if c = '\x08' then ['\\', 'b']
  else if c = '\t' then ['\\', 't']
  else if c = '\n' then ['\\', 'n']
  else if c = '\x0C' then ['\\', 'f']
  else if c = '\r' then ['\\', 'r']
  else if c.toNat < 32 then
    ['\\', 'u', '0', '0', hexDigitChar (c.toNat / 16), hexDigitChar (c.toNat % 16)]
  else [c]

/-- Escaped body of a JSON string literal. -/
def escapeStr (s : List Char) : List Char :=
  match s with
  | [] => []
  | c :: cs => escapeChar c ++ escapeStr cs

/-- A quoted JSON string literal. -/
def quoteStr (s : List Char) : List Char :=
  '"' :: (escapeStr s ++ ['"'])

/-- Line break plus indentation emitted before an element when the gap is
nonempty; nothing in compact mode (ECMA-262 SerializeJSONArray separator
construction). -/
def leadChars (gap ind : List Char) : List Char :=
  if gap.isEmpty then [] else '\n' :: ind

/-- Closing text of a nonempty array or object: in pretty mode the closer
sits on its own line at the enclosing indentation. -/
def closeChars (gap ind : List Char) (c : Char) : List Char :=
  if gap.isEmpty then [c] else '\n' :: (ind ++ [c])

/-- Separator between an object key and its value: a bare colon in compact
mode, colon plus space when a gap is set. -/
def colonChars (gap : List Char) : List Char :=
  if gap.isEmpty then [':'] else [':', ' ']

mutual

/-- Model of ECMA-262 JSON.stringify restricted to the `JVal` domain:
`serVal gap ind v` is the serialization of `v` with gap string `gap` at
current indentation `ind`.  The codec of src/DataType/JSON.ts calls this with
a two-space gap (JSON.stringify(data, null, 2)); the dispatcher fallback of
src/Lask.ts calls it with the empty gap (JSON.stringify(output)). -/
def serVal (gap ind : List Char) : JVal → List Char
  | .null => ['n', 'u', 'l', 'l']
  | .num n => numChars n
  | .bool true => ['t', 'r', 'u', 'e']
  | .str s => quoteStr s
  | .bool false => ['f', 'a', 'l', 's', 'e']
  | .arr a => serArr gap ind a
  | .obj o => serObj gap ind o

/-- Array serialization: empty arrays print as a bare bracket pair; nonempty
arrays indent each element one gap deeper. -/
def serArr (gap ind : List Char) : JArr → List Char
  | .nil => ['[', ']']
  | .cons x xs =>
      '[' :: (leadChars gap (ind ++ gap) ++ serVal gap (ind ++ gap) x
        ++ serArrRest gap (ind ++ gap) xs ++ closeChars gap ind ']')

/-- Elements of an array after the first, each preceded by a comma and the
element lead. -/
def serArrRest (gap ind : List Char) : JArr → List Char
  | .nil => []
  | .cons x xs =>
      ',' :: (leadChars gap ind ++ serVal gap ind x ++ serArrRest gap ind xs)

/-- Object serialization: empty objects print as a bare brace pair; nonempty
objects indent each member one gap deeper. -/
def serObj (gap ind : List Char) : JObj → List Char
  | .nil => ['{', '}']
  | .cons k v kvs =>
      '{' :: (leadChars gap (ind ++ gap) ++ quoteStr k ++ colonChars gap
        ++ serVal gap (ind ++ gap) v ++ serObjRest gap (ind ++ gap) kvs
        ++ closeChars gap ind '}')

/-- Members of an object after the first, each preceded by a comma and the
member lead. -/
def serObjRest (gap ind : List Char) : JObj → List Char
  | .nil => []
  | .cons k v kvs =>
      ',' :: (leadChars gap ind ++ quoteStr k ++ colonChars gap
        ++ serVal gap ind v ++ serObjRest gap ind kvs)

end

/-- Encoder of the JSON codec in src/DataType/JSON.ts: the body of `encode`
is JSON.stringify(data, null, 2), that is, serialization with a two-space
gap. -/
def jsonEncode (v : JVal) : List Char := serVal [' ', ' '] [] v

/-- The dispatcher fallback encoding in src/Lask.ts line 221: compact
JSON.stringify(output) with no gap argument. -/
def jsonStringifyCompact (v : JVal) : List Char := serVal [] [] v

/-- JSON insignificant whitespace: space, tab, line feed, carriage return. -/
def isWsChar (c : Char) : Bool :=
  c = ' ' || c = '\t' || c = '\n' || c = '\r'

/-- Skip insignificant whitespace at the front of the input. -/
def skipWs : List Char → List Char
  | [] => []
  | c :: cs => if isWsChar c then skipWs cs else c :: cs

/-- ASCII decimal digit test. -/
def isDigitChar (c : Char) : Bool :=
  48 ≤ c.toNat && c.toNat ≤ 57

/-- Numeric value of an ASCII decimal digit. -/
def digitVal (c : Char) : Nat := c.toNat - 48

/-- Value of a run of decimal digits, most significant first. -/
def digitsToNat (ds : List Char) : Nat :=
  ds.foldl (fun a c => 10 * a + digitVal c) 0

/-- A JSON integer literal may not have a leading zero unless it is exactly
the single digit zero. -/
def leadingZeroBad : List Char → Bool
  | c :: _ :: _ => c = '0'
  | _ => false

/-- True when the character starting the remainder would extend a numeric
literal into a fraction or exponent.  Such literals denote non-integer
doubles and sit outside the integer number model; the serializer never
emits them. -/
def numContinues : List Char → Bool
  | [] => false
  | c :: _ => c = '.' || c = 'e' || c = 'E'

/-- Parse the unsigned-integer part of a JSON number literal: a nonempty
digit run without a forbidden leading zero, not followed by a fraction or
exponent marker. -/
def parseNatNum (s : List Char) : Option (Nat × List Char) :=
  let ds := s.takeWhile isDigitChar
  let rest := s.dropWhile isDigitChar
  if ds.isEmpty then none
  else if leadingZeroBad ds then none
  else if numContinues rest then none
  else some (digitsToNat ds, rest)

/-- Parse a JSON number literal (optional minus sign, then digits). -/
def parseNumFrom (s : List Char) : Option (JSNum × List Char) :=
  match s with
  | [] => none
  | c :: cs =>
    if c = '-' then
      match parseNatNum cs with
      | some (n, r) => some (.int (-(n : Int)), r)
      | none => none
    else
      match parseNatNum (c :: cs) with
      | some (n, r) => some (.int (n : Int), r)
      | none => none

/-- Short escapes accepted after a backslash in a JSON string literal. -/
def unescapeChar (c : Char) : Option Char :=
  if c = '"' then some '"'
  else if c = '\\' then some '\\'
  else if c = '/' then some '/'
  else if c = 'b' then some '\x08'
  else if c = 'f' then some '\x0C'
  else if c = 'n' then some '\n'
  else if c = 'r' then some '\r'
  else if c = 't' then some '\t'
  else none

/-- Value of a hexadecimal digit character, upper or lower case. -/
def hexVal (c : Char) : Option Nat :=
  if 48 ≤ c.toNat ∧ c.toNat ≤ 57 then some (c.toNat - 48)
  else if 97 ≤ c.toNat ∧ c.toNat ≤ 102 then some (c.toNat - 87)
  else if 65 ≤ c.toNat ∧ c.toNat ≤ 70 then some (c.toNat - 55)
  else none

/-- Value of four hexadecimal digits. -/
def hex4 (h1 h2 h3 h4 : Char) : Option Nat :=
  match hexVal h1, hexVal h2, hexVal h3, hexVal h4 with
  | some a, some b, some c, some d => some (4096 * a + 256 * b + 16 * c + d)
  | _, _, _, _ => none

/-- Decode one character of a JSON string literal (the head character is not
the closing quote): a backslash escape, a \uXXXX escape, a \uXXXX surrogate
pair, or a literal character.  Raw control characters are rejected.  A
\uXXXX high surrogate followed by a \uXXXX low surrogate decodes to the
combined scalar value (JavaScript strings are UTF-16; a lone surrogate has
no counterpart among Unicode scalar values and is rejected by the model). -/
def strChar (c : Char) (cs : List Char) : Option (Char × List Char) :=
  if c = '\\' then
    match cs with
    | [] => none
    | e :: cs1 =>
      if e = 'u' then
        match cs1 with
        | h1 :: h2 :: h3 :: h4 :: cs2 =>
          match hex4 h1 h2 h3 h4 with
          | none => none
          | some v =>
            if v < 55296 ∨ 57343 < v then some (Char.ofNat v, cs2)
            else if v < 56320 then
              match cs2 with
              | b1 :: b2 :: l1 :: l2 :: l3 :: l4 :: cs3 =>
                if b1 = '\\' ∧ b2 = 'u' then
                  match hex4 l1 l2 l3 l4 with
                  | none => none
                  | some w =>
                    if 56320 ≤ w ∧ w ≤ 57343 then
                      some (Char.ofNat (65536 + (v - 55296) * 1024 + (w - 56320)), cs3)
                    else none
                else none
              | _ => none
            else none
        | _ => none
      else
        match unescapeChar e with
        | some d => some (d, cs1)
        | none => none
  else if c.toNat < 32 then none
  else some (c, cs)

/-- Parse the body of a JSON string literal after the opening quote, up to
and including the closing quote.  The fuel argument bounds the number of
decoded characters; each step consumes at least one input character, so the
input length suffices (see `parseStr`). -/
def parseStrBodyF : Nat → List Char → Option (List Char × List Char)
  | 0, _ => none
  | fuel + 1, s =>
    match s with
    | [] => none
    | c :: cs =>
      if c = '"' then some ([], cs)
      else
        match strChar c cs with
        | some (d, cs2) =>
          match parseStrBodyF fuel cs2 with
          | some (str, r) => some (d :: str, r)
          | none => none
        | none => none

/-- String literal body parser with self-supplied sufficient fuel. -/
def parseStr (s : List Char) : Option (List Char × List Char) :=
  parseStrBodyF (s.length + 1) s

/-- Match an expected literal tail (used for the null, true and false
keywords). -/
def dropLit : List Char → List Char → Option (List Char)
  | [], s => some s
  | p :: ps, c :: cs => if c = p then dropLit ps cs else none
  | _ :: _, [] => none

mutual

/-- Model of ECMA-262 JSON.parse on the `JVal` domain, as a recursive
descent parser returning the value and the unconsumed remainder.  The fuel
argument only bounds recursion depth; the top-level entry point `jsonParse`
supplies a bound proven sufficient for any serializer output.  Fractional
and exponent number literals denote non-integer doubles and are outside the
integer number model (the serializer never emits them). -/
def parseVal : Nat → List Char → Option (JVal × List Char)
  | 0, _ => none
  | fuel + 1, s =>
    match skipWs s with
    | [] => none
    | c :: cs =>
      if c = '{' then
        match parseObjFirst fuel cs with
        | some (o, r) => some (.obj o, r)
        | none => none
      else if c = '[' then
        match parseArrFirst fuel cs with
        | some (a, r) => some (.arr a, r)
        | none => none
      else if c = '"' then
        match parseStr cs with
        | some (str, r) => some (.str str, r)
        | none => none
      else if c = 'n' then
        match dropLit ['u', 'l', 'l'] cs with
        | some r => some (.null, r)
        | none => none
      else if c = 't' then
        match dropLit ['r', 'u', 'e'] cs with
        | some r => some (.bool true, r)
        | none => none
      else if c = 'f' then
        match dropLit ['a', 'l', 's', 'e'] cs with
        | some r => some (.bool false, r)
        | none => none
      else if c = '-' || isDigitChar c then
        match parseNumFrom (c :: cs) with
        | some (n, r) => some (.num n, r)
        | none => none
      else none

/-- After an opening bracket: an immediate closing bracket yields the empty
array, otherwise the first element followed by the element loop. -/
def parseArrFirst : Nat → List Char → Option (JArr × List Char)
  | 0, _ => none
  | fuel + 1, s =>
    match skipWs s with
    | [] => none
    | c :: cs =>
      if c = ']' then some (.nil, cs)
      else
        match parseVal fuel (c :: cs) with
        | some (v, r) =>
          match parseArrRest fuel r with
          | some (xs, r2) => some (.cons v xs, r2)
          | none => none
        | none => none

/-- After an array element: either the closing bracket, or a comma and a
further element. -/
def parseArrRest : Nat → List Char → Option (JArr × List Char)
  | 0, _ => none
  | fuel + 1, s =>
    match skipWs s with
    | [] => none
    | c :: cs =>
      if c = ']' then some (.nil, cs)
      else if c = ',' then
        match parseVal fuel cs with
        | some (v, r) =>
          match parseArrRest fuel r with
          | some (xs, r2) => some (.cons v xs, r2)
          | none => none
        | none => none
      else none

/-- One object member: a quoted key, a colon, and a value. -/
def parseMember : Nat → List Char → Option ((List Char × JVal) × List Char)
  | 0, _ => none
  | fuel + 1, s =>
    match s with
    | [] => none
    | c :: cs =>
      if c = '"' then
        match parseStr cs with
        | some (k, r) =>
          match skipWs r with
          | [] => none
          | d :: ds =>
            if d = ':' then
              match parseVal fuel ds with
              | some (v, r2) => some ((k, v), r2)
              | none => none
            else none
        | none => none
      else none

/-- After an opening brace: an immediate closing brace yields the empty
object, otherwise the first member followed by the member loop. -/
def parseObjFirst : Nat → List Char → Option (JObj × List Char)
  | 0, _ => none
  | fuel + 1, s =>
    match skipWs s with
    | [] => none
    | c :: cs =>
      if c = '}' then some (.nil, cs)
      else
        match parseMember fuel (c :: cs) with
        | some ((k, v), r) =>
          match parseObjRest fuel r with
          | some (o, r2) => some (.cons k v o, r2)
          | none => none
        | none => none

/-- After an object member: either the closing brace, or a comma and a
further member. -/
def parseObjRest : Nat → List Char → Option (JObj × List Char)
  | 0, _ => none
  | fuel + 1, s =>
    match skipWs s with
    | [] => none
    | c :: cs =>
      if c = '}' then some (.nil, cs)
      else if c = ',' then
        match parseMember fuel (skipWs cs) with
        | some ((k, v), r) =>
          match parseObjRest fuel r with
          | some (o, r2) => some (.cons k v o, r2)
          | none => none
        | none => none
      else none

end

/-- Decoder of the JSON codec in src/DataType/JSON.ts: the body of `decode`
is JSON.parse(data).  A parse error (result `none`) models the thrown
SyntaxError.  The fuel bound 2·length+2 is proven sufficient for every
serializer output below. -/
def jsonParse (s : List Char) : Option JVal :=
  match parseVal (2 * s.length + 2) s with
  | some (v, r) => if (skipWs r).isEmpty then some v else none
  | none => none

/-- A list of space characters: the shape of every gap and indentation string
the serializer is called with (the codec gap is two spaces, the fallback gap
is empty). -/
def SpList (l : List Char) : Prop := ∀ c ∈ l, c = ' '

/-- True when the remainder cannot extend a preceding numeric literal: it is
exhausted or starts with a character that is neither a digit nor a fraction
or exponent marker. -/
def numStop : List Char → Bool
  | [] => true
  | c :: _ => !(isDigitChar c || c = '.' || c = 'e' || c = 'E')

theorem spList_ws {l : List Char} (h : SpList l) : ∀ c ∈ l, isWsChar c = true := by
  intro c hc
  rw [h c hc]
  decide

theorem skipWs_append {l : List Char} (h : ∀ c ∈ l, isWsChar c = true) (s : List Char) :
    skipWs (l ++ s) = skipWs s := by
  induction l with
  | nil => rfl
  | cons c l ih =>
    rw [List.cons_append, skipWs, if_pos]
    · exact ih fun d hd => h d (List.mem_cons_of_mem c hd)
    · exact of_decide_eq_true (by rw [h c (List.mem_cons_self c l)]; rfl)

theorem skipWs_not_ws {c : Char} (h : isWsChar c = false) (s : List Char) :
    skipWs (c :: s) = c :: s := by
  rw [skipWs, if_neg]
  simp [h]

theorem dropLit_append (p s : List Char) : dropLit p (p ++ s) = some s := by
  induction p with
  | nil => rfl
  | cons c p ih => rw [List.cons_append, dropLit, if_pos rfl, ih]

theorem isWsChar_of_digit {c : Char} (h : isDigitChar c = true) : isWsChar c = false := by
  have h1 : c ≠ ' ' := fun e => absurd (e ▸ h) (by decide)
  have h2 : c ≠ '\t' := fun e => absurd (e ▸ h) (by decide)
  have h3 : c ≠ '\n' := fun e => absurd (e ▸ h) (by decide)
  have h4 : c ≠ '\r' := fun e => absurd (e ▸ h) (by decide)
  simp [isWsChar, h1, h2, h3, h4]

theorem digit_ne {c d : Char} (h : isDigitChar c = true) (hd : isDigitChar d = false) :
    c ≠ d := by
  intro e
  subst e
  rw [h] at hd
  exact absurd hd (by decide)

theorem natChars_go_acc (n : Nat) : ∀ acc : List Char,
    natChars.go n acc = natChars.go n [] ++ acc := by
  induction n using Nat.strong_induction_on with
  | _ n ih =>
    intro acc
    unfold natChars.go
    split
    · simp
    · rw [ih (n / 10) (Nat.div_lt_self (by omega) (by omega)),
        ih (n / 10) (Nat.div_lt_self (by omega) (by omega)) [digitChar (n % 10)]]
      simp

theorem natChars_eq (n : Nat) :
    natChars n = if n < 10 then [digitChar n]
      else natChars (n / 10) ++ [digitChar (n % 10)] := by
  show natChars.go n [] = _
  unfold natChars.go
  split
  · simp_all
  · rw [natChars_go_acc]
    simp_all [natChars]

theorem isDigitChar_digitChar (d : Nat) : isDigitChar (digitChar d) = true := by
  unfold digitChar
  split <;> decide

theorem natChars_all_digits (n : Nat) : ∀ c ∈ natChars n, isDigitChar c = true := by
  induction n using Nat.strong_induction_on with
  | _ n ih =>
    intro c hc
    rw [natChars_eq] at hc
    split at hc
    · rcases List.mem_singleton.mp hc with rfl
      exact isDigitChar_digitChar n
    · rcases List.mem_append.mp hc with h | h
      · exact ih (n / 10) (Nat.div_lt_self (by omega) (by omega)) c h
      · rcases List.mem_singleton.mp h with rfl
        exact isDigitChar_digitChar (n % 10)

theorem natChars_ne_nil (n : Nat) : natChars n ≠ [] := by
  rw [natChars_eq]
  split
  · simp
  · simp [natChars_ne_nil (n / 10)]
termination_by n
decreasing_by exact Nat.div_lt_self (by omega) (by omega)

theorem digitChar_ne_zero {d : Nat} (h1 : 0 < d) (h2 : d < 10) : digitChar d ≠ '0' := by
  interval_cases d <;> decide

theorem natChars_head_ne_zero (n : Nat) :
    0 < n → ∀ c cs, natChars n = c :: cs → c ≠ '0' := by
  induction n using Nat.strong_induction_on with
  | _ n ih =>
    intro hn c cs hc
    rw [natChars_eq] at hc
    split at hc
    · rw [List.cons.injEq] at hc
      rw [← hc.1]
      exact digitChar_ne_zero hn (by omega)
    · rename_i h10
      rcases he : natChars (n / 10) with _ | ⟨d, ds⟩
      · exact absurd he (natChars_ne_nil _)
      · rw [he, List.cons_append, List.cons.injEq] at hc
        rw [← hc.1]
        exact ih (n / 10) (Nat.div_lt_self (by omega) (by omega))
          (by omega) d ds he

theorem digitVal_digitChar {d : Nat} (h : d < 10) : digitVal (digitChar d) = d := by
  interval_cases d <;> decide

theorem digitsToNat_append_single (ds : List Char) (d : Char) :
    digitsToNat (ds ++ [d]) = 10 * digitsToNat ds + digitVal d := by
  simp [digitsToNat, List.foldl_append]

theorem digitsToNat_natChars (n : Nat) : digitsToNat (natChars n) = n := by
  induction n using Nat.strong_induction_on with
  | _ n ih =>
    rw [natChars_eq]
    split
    · show digitsToNat [digitChar n] = n
      have : digitVal (digitChar n) = n := digitVal_digitChar (by omega)
      simp [digitsToNat, this]
    · rw [digitsToNat_append_single,
        ih (n / 10) (Nat.div_lt_self (by omega) (by omega)),
        digitVal_digitChar (by omega)]
      omega

theorem leadingZeroBad_natChars (n : Nat) : leadingZeroBad (natChars n) = false := by
  rw [natChars_eq]
  split
  · rfl
  · rename_i h10
    rcases he : natChars (n / 10) with _ | ⟨d, ds⟩
    · exact absurd he (natChars_ne_nil _)
    · have hd : d ≠ '0' :=
        natChars_head_ne_zero (n / 10) (by omega) d ds he
      rcases ds with _ | ⟨d2, ds2⟩ <;> simp [leadingZeroBad, hd]

theorem takeWhile_all_append {p : Char → Bool} {l rest : List Char}
    (h1 : ∀ c ∈ l, p c = true) (h2 : ∀ c, rest.head? = some c → p c = false) :
    (l ++ rest).takeWhile p = l ∧ (l ++ rest).dropWhile p = rest := by
  induction l with
  | nil =>
    rcases rest with _ | ⟨c, cs⟩
    · exact ⟨rfl, rfl⟩
    · have := h2 c rfl
      simp [List.takeWhile, List.dropWhile, this]
  | cons c l ih =>
    have hc : p c = true := h1 c (List.mem_cons_self c l)
    have := ih (fun d hd => h1 d (List.mem_cons_of_mem c hd))
    simp only [List.cons_append, List.takeWhile_cons, List.dropWhile_cons, hc]
    simp [this.1, this.2]

theorem numStop_head_not_digit {rest : List Char} (h : numStop rest = true) :
    ∀ c, rest.head? = some c → isDigitChar c = false := by
  intro c hc
  rcases rest with _ | ⟨d, ds⟩
  · simp at hc
  · have hdc : d = c := by simpa using hc
    subst hdc
    simp only [numStop, Bool.not_eq_eq_eq_not, Bool.not_true] at h
    rcases Bool.or_eq_false_iff.mp h with ⟨h1, -⟩
    rcases Bool.or_eq_false_iff.mp h1 with ⟨h2, -⟩
    exact (Bool.or_eq_false_iff.mp h2).1

theorem parseNatNum_natChars {rest : List Char} (h : numStop rest = true) (n : Nat) :
    parseNatNum (natChars n ++ rest) = some (n, rest) := by
  have hsplit := takeWhile_all_append (natChars_all_digits n) (numStop_head_not_digit h)
  rw [parseNatNum]
  simp only [hsplit.1, hsplit.2]
  rw [if_neg, if_neg, if_neg]
  · rw [digitsToNat_natChars]
  · rcases rest with _ | ⟨c, cs⟩
    · simp [numContinues]
    · have hc := numStop_head_not_digit h c rfl
      simp only [numStop, Bool.not_eq_eq_eq_not, Bool.not_true] at h
      rcases Bool.or_eq_false_iff.mp h with ⟨h1, hE⟩
      rcases Bool.or_eq_false_iff.mp h1 with ⟨h2, he⟩
      have hdot := (Bool.or_eq_false_iff.mp h2).2
      simp [numContinues, hdot, he, hE]
  · simp [leadingZeroBad_natChars n]
  · simp [natChars_ne_nil n]

theorem hexVal_hexDigitChar {d : Nat} (h : d < 16) : hexVal (hexDigitChar d) = some d := by
  interval_cases d <;> decide

theorem hex4_controlEscape {t : Nat} (h : t < 32) :
    hex4 '0' '0' (hexDigitChar (t / 16)) (hexDigitChar (t % 16)) = some t := by
  have h0 : hexVal '0' = some 0 := by decide
  rw [hex4, h0, hexVal_hexDigitChar (by omega), hexVal_hexDigitChar (by omega)]
  show some (4096 * 0 + 256 * 0 + 16 * (t / 16) + t % 16) = some t
  congr 1
  omega

theorem strChar_escape (c : Char) (tail : List Char) :
    ∃ c0 cr, escapeChar c = c0 :: cr ∧ c0 ≠ '"'
      ∧ strChar c0 (cr ++ tail) = some (c, tail) := by
  by_cases h1 : c = '"'
  · exact ⟨'\\', ['"'], by subst h1; decide, by decide,
      by subst h1; simp +decide [strChar, unescapeChar]⟩
  by_cases h2 : c = '\\'
  · exact ⟨'\\', ['\\'], by subst h2; decide, by decide,
      by subst h2; simp +decide [strChar, unescapeChar]⟩
  by_cases h3 : c = '\x08'
  · exact ⟨'\\', ['b'], by subst h3; decide, by decide,
      by subst h3; simp +decide [strChar, unescapeChar]⟩
  by_cases h4 : c = '\t'
  · exact ⟨'\\', ['t'], by subst h4; decide, by decide,
      by subst h4; simp +decide [strChar, unescapeChar]⟩
  by_cases h5 : c = '\n'
  · exact ⟨'\\', ['n'], by subst h5; decide, by decide,
      by subst h5; simp +decide [strChar, unescapeChar]⟩
  by_cases h6 : c = '\x0C'
  · exact ⟨'\\', ['f'], by subst h6; decide, by decide,
      by subst h6; simp +decide [strChar, unescapeChar]⟩
  by_cases h7 : c = '\r'
  · exact ⟨'\\', ['r'], by subst h7; decide, by decide,
      by subst h7; simp +decide [strChar, unescapeChar]⟩
  by_cases h8 : c.toNat < 32
  · refine ⟨'\\', ['u', '0', '0', hexDigitChar (c.toNat / 16), hexDigitChar (c.toNat % 16)],
      ?_, by decide, ?_⟩
    · rw [escapeChar, if_neg h1, if_neg h2, if_neg h3, if_neg h4, if_neg h5,
        if_neg h6, if_neg h7, if_pos h8]
    · have hlt : c.toNat < 55296 ∨ 57343 < c.toNat := Or.inl (by omega)
      simp only [List.cons_append, List.nil_append]
      simp +decide [strChar, hex4_controlEscape h8, hlt, Char.ofNat_toNat]
  · refine ⟨c, [], ?_, h1, ?_⟩
    · rw [escapeChar, if_neg h1, if_neg h2, if_neg h3, if_neg h4, if_neg h5,
        if_neg h6, if_neg h7, if_neg h8]
    · simp only [List.nil_append]
      rw [strChar.eq_def, if_neg h2, if_neg h8]

theorem parseStrBodyF_escape (s : List Char) : ∀ (fuel : Nat) (rest : List Char),
    s.length + 1 ≤ fuel →
    parseStrBodyF fuel (escapeStr s ++ '"' :: rest) = some (s, rest) := by
  induction s with
  | nil =>
    intro fuel rest hf
    obtain ⟨f, rfl⟩ : ∃ f, fuel = f + 1 := ⟨fuel - 1, by omega⟩
    simp +decide [parseStrBodyF, escapeStr]
  | cons c s ih =>
    intro fuel rest hf
    obtain ⟨f, rfl⟩ : ∃ f, fuel = f + 1 := ⟨fuel - 1, by simp at hf; omega⟩
    obtain ⟨c0, cr, he, hq, hs⟩ := strChar_escape c (escapeStr s ++ '"' :: rest)
    show parseStrBodyF (f + 1) ((escapeChar c ++ escapeStr s) ++ '"' :: rest) = _
    rw [List.append_assoc, he, List.cons_append]
    rw [parseStrBodyF, if_neg hq, hs]
    simp [ih f rest (by simp at hf; omega)]

theorem escapeChar_length_pos (c : Char) : 1 ≤ (escapeChar c).length := by
  rw [escapeChar]
  split_ifs <;> simp

theorem escapeStr_length_ge (s : List Char) : s.length ≤ (escapeStr s).length := by
  induction s with
  | nil => simp [escapeStr]
  | cons c s ih =>
    show (c :: s).length ≤ (escapeChar c ++ escapeStr s).length
    have := escapeChar_length_pos c
    simp only [List.length_cons, List.length_append]
    omega

theorem parseStr_escape (s rest : List Char) :
    parseStr (escapeStr s ++ '"' :: rest) = some (s, rest) := by
  apply parseStrBodyF_escape
  have := escapeStr_length_ge s
  simp only [List.length_append, List.length_cons]
  omega

mutual

/-- Recursion-depth budget the parser needs for a serialized value. -/
def sizeV : JVal → Nat
  | .null => 1
  | .bool _ => 1
  | .num _ => 1
  | .str _ => 1
  | .arr a => 1 + sizeA a
  | .obj o => 1 + sizeO o

/-- Recursion-depth budget for an array tail. -/
def sizeA : JArr → Nat
  | .nil => 1
  | .cons x xs => 1 + sizeV x + sizeA xs

/-- Recursion-depth budget for an object tail. -/
def sizeO : JObj → Nat
  | .nil => 1
  | .cons _ v kvs => 2 + sizeV v + sizeO kvs

end

theorem numStop_close (gap ind rest : List Char) {b : Char}
    (hb : isDigitChar b = false ∧ b ≠ '.' ∧ b ≠ 'e' ∧ b ≠ 'E') :
    numStop (closeChars gap ind b ++ rest) = true := by
  rw [closeChars]
  split
  · simp [numStop, hb.1, hb.2.1, hb.2.2.1, hb.2.2.2]
  · simp +decide [numStop]

theorem numStop_serArrRest (gap ind ind2 rest : List Char) (xs : JArr) :
    numStop (serArrRest gap ind xs ++ (closeChars gap ind2 ']' ++ rest)) = true := by
  cases xs with
  | nil =>
    rw [serArrRest, List.nil_append]
    exact numStop_close gap ind2 rest ⟨by decide, by decide, by decide, by decide⟩
  | cons x xs => simp +decide [serArrRest, numStop]

theorem numStop_serObjRest (gap ind ind2 rest : List Char) (kvs : JObj) :
    numStop (serObjRest gap ind kvs ++ (closeChars gap ind2 '}' ++ rest)) = true := by
  cases kvs with
  | nil =>
    rw [serObjRest, List.nil_append]
    exact numStop_close gap ind2 rest ⟨by decide, by decide, by decide, by decide⟩
  | cons k v kvs => simp +decide [serObjRest, numStop]

mutual

/-- All numeric leaves of the value are finite (integer-modelled) numbers.
NaN and the infinities serialize as the text null and therefore cannot
round-trip. -/
def finV : JVal → Bool
  | .null => true
  | .bool _ => true
  | .num (.int _) => true
  | .num _ => false
  | .str _ => true
  | .arr a => finA a
  | .obj o => finO o

/-- Finiteness of every element of an array. -/
def finA : JArr → Bool
  | .nil => true
  | .cons x xs => finV x && finA xs

/-- Finiteness of every property value of an object. -/
def finO : JObj → Bool
  | .nil => true
  | .cons _ v kvs => finV v && finO kvs

end

theorem parseVal_ws {l : List Char} (h : ∀ c ∈ l, isWsChar c = true)
    (fuel : Nat) (s : List Char) : parseVal fuel (l ++ s) = parseVal fuel s := by
  cases fuel with
  | zero => rfl
  | succ f =>
    simp only [parseVal]
    rw [skipWs_append h]

theorem skipWs_closeChars {gap ind : List Char} {b : Char} (hi : SpList ind)
    (hb : isWsChar b = false) (rest : List Char) :
    skipWs (closeChars gap ind b ++ rest) = b :: rest := by
  rw [closeChars]
  split
  · rw [List.singleton_append, skipWs_not_ws hb]
  · rw [List.cons_append, skipWs, if_pos (by decide), List.append_assoc,
      List.singleton_append, skipWs_append (spList_ws hi), skipWs_not_ws hb]

theorem serVal_head (gap ind : List Char) (v : JVal) :
    ∃ c cs, serVal gap ind v = c :: cs ∧ isWsChar c = false ∧ c ≠ ']' ∧ c ≠ '}' := by
  have hok : ∀ c : Char, c ∈ ['n', 't', 'f', '"', '[', '{', '-'] →
      isWsChar c = false ∧ c ≠ ']' ∧ c ≠ '}' := by decide
  cases v with
  | null => exact ⟨'n', _, rfl, hok 'n' (by decide)⟩
  | bool b => cases b with
    | true => exact ⟨'t', _, rfl, hok 't' (by decide)⟩
    | false => exact ⟨'f', _, rfl, hok 'f' (by decide)⟩
  | num n =>
    cases n with
    | int i =>
      show ∃ c cs, intChars i = c :: cs ∧ _
      rw [intChars]
      split
      · exact ⟨'-', _, rfl, hok '-' (by decide)⟩
      · rcases he : natChars i.toNat with _ | ⟨c, cs⟩
        · exact absurd he (natChars_ne_nil _)
        · have hd : isDigitChar c = true :=
            natChars_all_digits i.toNat c (he ▸ List.mem_cons_self c cs)
          exact ⟨c, cs, rfl, isWsChar_of_digit hd, digit_ne hd (by decide),
            digit_ne hd (by decide)⟩
    | nan => exact ⟨'n', _, rfl, hok 'n' (by decide)⟩
    | posInf => exact ⟨'n', _, rfl, hok 'n' (by decide)⟩
    | negInf => exact ⟨'n', _, rfl, hok 'n' (by decide)⟩
  | str s => exact ⟨'"', _, rfl, hok '"' (by decide)⟩
  | arr a => cases a with
    | nil => exact ⟨'[', _, rfl, hok '[' (by decide)⟩
    | cons x xs => exact ⟨'[', _, rfl, hok '[' (by decide)⟩
  | obj o => cases o with
    | nil => exact ⟨'{', _, rfl, hok '{' (by decide)⟩
    | cons k x kvs => exact ⟨'{', _, rfl, hok '{' (by decide)⟩

theorem skipWs_serVal (gap ind : List Char) (v : JVal) (rest : List Char) :
    skipWs (serVal gap ind v ++ rest) = serVal gap ind v ++ rest := by
  obtain ⟨c, cs, he, hws, -, -⟩ := serVal_head gap ind v
  rw [he, List.cons_append, skipWs_not_ws hws]

theorem parseVal_intChars {rest : List Char} (h : numStop rest = true) (i : Int)
    (f : Nat) : parseVal (f + 1) (intChars i ++ rest) = some (.num (.int i), rest) := by
  rw [intChars]
  split
  · rename_i hneg
    have hni : ((-i).toNat : Int) = -i := Int.toNat_of_nonneg (by omega)
    simp only [List.cons_append, parseVal]
    rw [skipWs_not_ws (by decide)]
    simp +decide [parseNumFrom, parseNatNum_natChars h, hni]
  · rename_i hpos
    rcases he : natChars i.toNat with _ | ⟨c, cs⟩
    · exact absurd he (natChars_ne_nil _)
    · have hd : isDigitChar c = true :=
        natChars_all_digits i.toNat c (he ▸ List.mem_cons_self c cs)
      have h1 : c ≠ '{' := digit_ne hd (by decide)
      have h2 : c ≠ '[' := digit_ne hd (by decide)
      have h3 : c ≠ '"' := digit_ne hd (by decide)
      have h4 : c ≠ 'n' := digit_ne hd (by decide)
      have h5 : c ≠ 't' := digit_ne hd (by decide)
      have h6 : c ≠ 'f' := digit_ne hd (by decide)
      have h7 : c ≠ '-' := digit_ne hd (by decide)
      have hpn : parseNatNum (c :: (cs ++ rest)) = some (i.toNat, rest) := by
        rw [show c :: (cs ++ rest) = (c :: cs) ++ rest from rfl, ← he,
          parseNatNum_natChars h]
      have hti : (i.toNat : Int) = i := Int.toNat_of_nonneg (by omega)
      rw [List.cons_append]
      simp only [parseVal]
      rw [skipWs_not_ws (isWsChar_of_digit hd)]
      simp [h1, h2, h3, h4, h5, h6, h7, hd, parseNumFrom, hpn, hti]

theorem allWs_leadChars {gap ind : List Char} (hi : SpList ind) :
    ∀ c ∈ leadChars gap ind, isWsChar c = true := by
  intro c hc
  rw [leadChars] at hc
  split at hc
  · simp at hc
  · rcases List.mem_cons.mp hc with rfl | h
    · decide
    · exact spList_ws hi c h

/-- The text of a serialized array after its opening bracket. -/
def arrInner (gap ind : List Char) : JArr → List Char
  | .nil => [']']
  | .cons x xs =>
      leadChars gap (ind ++ gap) ++ serVal gap (ind ++ gap) x
        ++ serArrRest gap (ind ++ gap) xs ++ closeChars gap ind ']'

/-- The text of a serialized object after its opening brace. -/
def objInner (gap ind : List Char) : JObj → List Char
  | .nil => ['}']
  | .cons k v kvs =>
      leadChars gap (ind ++ gap) ++ quoteStr k ++ colonChars gap
        ++ serVal gap (ind ++ gap) v ++ serObjRest gap (ind ++ gap) kvs
        ++ closeChars gap ind '}'

theorem serArr_decomp (gap ind : List Char) (a : JArr) :
    serArr gap ind a = '[' :: arrInner gap ind a := by
  cases a <;> simp [serArr, arrInner]

theorem serObj_decomp (gap ind : List Char) (o : JObj) :
    serObj gap ind o = '{' :: objInner gap ind o := by
  cases o <;> simp [serObj, objInner]

theorem parseMember_round (k : List Char) (v : JVal) (gap ind rest : List Char) (f : Nat)
    (hr : numStop rest = true)
    (hv : ∀ rest2 f2, numStop rest2 = true → sizeV v ≤ f2 →
      parseVal f2 (serVal gap ind v ++ rest2) = some (v, rest2))
    (hf : sizeV v ≤ f) :
    parseMember (f + 1) (quoteStr k ++ (colonChars gap ++ (serVal gap ind v ++ rest)))
      = some ((k, v), rest) := by
  have hshape : quoteStr k ++ (colonChars gap ++ (serVal gap ind v ++ rest))
      = '"' :: (escapeStr k ++ ('"' :: (colonChars gap ++ (serVal gap ind v ++ rest)))) := by
    simp [quoteStr]
  rw [hshape]
  simp only [parseMember, if_true, parseStr_escape]
  by_cases hge : gap.isEmpty = true
  · rw [colonChars.eq_def, if_pos hge, List.singleton_append, skipWs_not_ws (by decide)]
    simp +decide [hv rest f hr hf]
  · rw [colonChars.eq_def, if_neg hge]
    rw [show (([':', ' '] : List Char) ++ (serVal gap ind v ++ rest))
      = ':' :: (' ' :: (serVal gap ind v ++ rest)) from rfl]
    rw [skipWs_not_ws (by decide)]
    have hsp : ∀ c ∈ [' '], isWsChar c = true := by decide
    have hws : ∀ (fuel : Nat) (s : List Char), parseVal fuel (' ' :: s) = parseVal fuel s :=
      fun fuel s => parseVal_ws hsp fuel s
    simp +decide [hws, hv rest f hr hf]


mutual

def serVal_round : ∀ (v : JVal) (gap ind rest : List Char) (fuel : Nat),
    SpList gap → SpList ind → numStop rest = true → finV v = true → sizeV v ≤ fuel →
    parseVal fuel (serVal gap ind v ++ rest) = some (v, rest)
  | .null, gap, ind, rest, fuel, hg, hi, hr, hfin, hf => by
    obtain ⟨f, rfl⟩ : ∃ f, fuel = f + 1 := ⟨fuel - 1, by simp [sizeV] at hf; omega⟩
    simp only [serVal, List.cons_append]
    simp only [parseVal]
    rw [skipWs_not_ws (by decide)]
    simp +decide [dropLit]
  | .bool b, gap, ind, rest, fuel, hg, hi, hr, hfin, hf => by
    obtain ⟨f, rfl⟩ : ∃ f, fuel = f + 1 := ⟨fuel - 1, by simp [sizeV] at hf; omega⟩
    cases b with
    | true =>
      simp only [serVal, List.cons_append]
      simp only [parseVal]
      rw [skipWs_not_ws (by decide)]
      simp +decide [dropLit]
    | false =>
      simp only [serVal, List.cons_append]
      simp only [parseVal]
      rw [skipWs_not_ws (by decide)]
      simp +decide [dropLit]
  | .num n, gap, ind, rest, fuel, hg, hi, hr, hfin, hf => by
    obtain ⟨f, rfl⟩ : ∃ f, fuel = f + 1 := ⟨fuel - 1, by simp [sizeV] at hf; omega⟩
    cases n with
    | int i => simpa [serVal, numChars] using parseVal_intChars hr i f
    | nan => simp [finV] at hfin
    | posInf => simp [finV] at hfin
    | negInf => simp [finV] at hfin
  | .str s, gap, ind, rest, fuel, hg, hi, hr, hfin, hf => by
    obtain ⟨f, rfl⟩ : ∃ f, fuel = f + 1 := ⟨fuel - 1, by simp [sizeV] at hf; omega⟩
    have hshape : serVal gap ind (.str s) ++ rest = '"' :: (escapeStr s ++ ('"' :: rest)) := by
      simp [serVal, quoteStr]
    rw [hshape]
    simp only [parseVal]
    rw [skipWs_not_ws (by decide)]
    simp +decide [parseStr_escape]
  | .arr a, gap, ind, rest, fuel, hg, hi, hr, hfin, hf => by
    obtain ⟨f, rfl⟩ : ∃ f, fuel = f + 1 := ⟨fuel - 1, by simp [sizeV] at hf; omega⟩
    have hfa : finA a = true := by simpa [finV] using hfin
    have hsa : sizeA a ≤ f := by simp [sizeV] at hf; omega
    have harr := serArrFirst_round a gap ind rest f hg hi hr hfa hsa
    rw [show serVal gap ind (.arr a) = '[' :: arrInner gap ind a by
      simp [serVal, serArr_decomp]]
    rw [List.cons_append]
    simp only [parseVal]
    rw [skipWs_not_ws (by decide)]
    simp +decide [harr]
  | .obj o, gap, ind, rest, fuel, hg, hi, hr, hfin, hf => by
    obtain ⟨f, rfl⟩ : ∃ f, fuel = f + 1 := ⟨fuel - 1, by simp [sizeV] at hf; omega⟩
    have hfo : finO o = true := by simpa [finV] using hfin
    have hso : sizeO o ≤ f := by simp [sizeV] at hf; omega
    have hobj := serObjFirst_round o gap ind rest f hg hi hr hfo hso
    rw [show serVal gap ind (.obj o) = '{' :: objInner gap ind o by
      simp [serVal, serObj_decomp]]
    rw [List.cons_append]
    simp only [parseVal]
    rw [skipWs_not_ws (by decide)]
    simp +decide [hobj]

def serArrFirst_round : ∀ (a : JArr) (gap ind rest : List Char) (f : Nat),
    SpList gap → SpList ind → numStop rest = true → finA a = true → sizeA a ≤ f →
    parseArrFirst f (arrInner gap ind a ++ rest) = some (a, rest)
  | .nil, gap, ind, rest, f, hg, hi, hr, hfin, hf => by
    obtain ⟨f2, rfl⟩ : ∃ f2, f = f2 + 1 := ⟨f - 1, by simp [sizeA] at hf; omega⟩
    simp only [arrInner, List.singleton_append]
    simp only [parseArrFirst]
    rw [skipWs_not_ws (by decide)]
    simp +decide
  | .cons x xs, gap, ind, rest, f, hg, hi, hr, hfin, hf => by
    obtain ⟨f2, rfl⟩ : ∃ f2, f = f2 + 1 := ⟨f - 1, by simp [sizeA] at hf; omega⟩
    have hi2 : SpList (ind ++ gap) := by
      intro c hc
      rcases List.mem_append.mp hc with h | h
      exacts [hi c h, hg c h]
    have hfx : finV x = true ∧ finA xs = true := by
      simpa [finA, Bool.and_eq_true] using hfin
    have hsx : sizeV x ≤ f2 := by simp [sizeA] at hf; omega
    have hsxs : sizeA xs ≤ f2 := by simp [sizeA] at hf; omega
    have hshape : arrInner gap ind (.cons x xs) ++ rest
        = leadChars gap (ind ++ gap) ++ (serVal gap (ind ++ gap) x
          ++ (serArrRest gap (ind ++ gap) xs ++ (closeChars gap ind ']' ++ rest))) := by
      simp [arrInner, List.append_assoc]
    have hpv : parseVal f2 (serVal gap (ind ++ gap) x
        ++ (serArrRest gap (ind ++ gap) xs ++ (closeChars gap ind ']' ++ rest)))
        = some (x, serArrRest gap (ind ++ gap) xs ++ (closeChars gap ind ']' ++ rest)) :=
      serVal_round x gap (ind ++ gap) _ f2 hg hi2
        (numStop_serArrRest gap (ind ++ gap) ind rest xs) hfx.1 hsx
    have hpr : parseArrRest f2 (serArrRest gap (ind ++ gap) xs
        ++ (closeChars gap ind ']' ++ rest)) = some (xs, rest) :=
      serArrRest_round xs gap ind rest f2 hg hi hr hfx.2 hsxs
    obtain ⟨c, cs, he, hws, hbr, hbc⟩ := serVal_head gap (ind ++ gap) x
    rw [hshape]
    simp only [parseArrFirst]
    rw [skipWs_append (allWs_leadChars hi2), skipWs_serVal, he, List.cons_append]
    rw [he, List.cons_append] at hpv
    simp +decide [hbr, hpv, hpr]

def serArrRest_round : ∀ (xs : JArr) (gap ind rest : List Char) (f : Nat),
    SpList gap → SpList ind → numStop rest = true → finA xs = true → sizeA xs ≤ f →
    parseArrRest f (serArrRest gap (ind ++ gap) xs ++ (closeChars gap ind ']' ++ rest))
      = some (xs, rest)
  | .nil, gap, ind, rest, f, hg, hi, hr, hfin, hf => by
    obtain ⟨f2, rfl⟩ : ∃ f2, f = f2 + 1 := ⟨f - 1, by simp [sizeA] at hf; omega⟩
    simp only [serArrRest, List.nil_append]
    simp only [parseArrRest]
    rw [skipWs_closeChars hi (by decide)]
    simp +decide
  | .cons x xs, gap, ind, rest, f, hg, hi, hr, hfin, hf => by
    obtain ⟨f2, rfl⟩ : ∃ f2, f = f2 + 1 := ⟨f - 1, by simp [sizeA] at hf; omega⟩
    have hi2 : SpList (ind ++ gap) := by
      intro c hc
      rcases List.mem_append.mp hc with h | h
      exacts [hi c h, hg c h]
    have hfx : finV x = true ∧ finA xs = true := by
      simpa [finA, Bool.and_eq_true] using hfin
    have hsx : sizeV x ≤ f2 := by simp [sizeA] at hf; omega
    have hsxs : sizeA xs ≤ f2 := by simp [sizeA] at hf; omega
    have hshape : serArrRest gap (ind ++ gap) (.cons x xs) ++ (closeChars gap ind ']' ++ rest)
        = ',' :: (leadChars gap (ind ++ gap) ++ (serVal gap (ind ++ gap) x
          ++ (serArrRest gap (ind ++ gap) xs ++ (closeChars gap ind ']' ++ rest)))) := by
      simp [serArrRest, List.append_assoc]
    have hpv : parseVal f2 (leadChars gap (ind ++ gap) ++ (serVal gap (ind ++ gap) x
        ++ (serArrRest gap (ind ++ gap) xs ++ (closeChars gap ind ']' ++ rest))))
        = some (x, serArrRest gap (ind ++ gap) xs ++ (closeChars gap ind ']' ++ rest)) := by
      rw [parseVal_ws (allWs_leadChars hi2)]
      exact serVal_round x gap (ind ++ gap) _ f2 hg hi2
        (numStop_serArrRest gap (ind ++ gap) ind rest xs) hfx.1 hsx
    have hpr : parseArrRest f2 (serArrRest gap (ind ++ gap) xs
        ++ (closeChars gap ind ']' ++ rest)) = some (xs, rest) :=
      serArrRest_round xs gap ind rest f2 hg hi hr hfx.2 hsxs
    rw [hshape]
    simp only [parseArrRest]
    rw [skipWs_not_ws (by decide)]
    simp +decide [hpv, hpr]

def serObjFirst_round : ∀ (o : JObj) (gap ind rest : List Char) (f : Nat),
    SpList gap → SpList ind → numStop rest = true → finO o = true → sizeO o ≤ f →
    parseObjFirst f (objInner gap ind o ++ rest) = some (o, rest)
  | .nil, gap, ind, rest, f, hg, hi, hr, hfin, hf => by
    obtain ⟨f2, rfl⟩ : ∃ f2, f = f2 + 1 := ⟨f - 1, by simp [sizeO] at hf; omega⟩
    simp only [objInner, List.singleton_append]
    simp only [parseObjFirst]
    rw [skipWs_not_ws (by decide)]
    simp +decide
  | .cons k v kvs, gap, ind, rest, f, hg, hi, hr, hfin, hf => by
    obtain ⟨f2, rfl⟩ : ∃ f2, f = f2 + 1 := ⟨f - 1, by simp [sizeO] at hf; omega⟩
    have hi2 : SpList (ind ++ gap) := by
      intro c hc
      rcases List.mem_append.mp hc with h | h
      exacts [hi c h, hg c h]
    have hfx : finV v = true ∧ finO kvs = true := by
      simpa [finO, Bool.and_eq_true] using hfin
    have hshape : objInner gap ind (.cons k v kvs) ++ rest
        = leadChars gap (ind ++ gap) ++ (quoteStr k ++ (colonChars gap
          ++ (serVal gap (ind ++ gap) v ++ (serObjRest gap (ind ++ gap) kvs
            ++ (closeChars gap ind '}' ++ rest))))) := by
      simp [objInner, List.append_assoc]
    have hqshape : quoteStr k ++ (colonChars gap
        ++ (serVal gap (ind ++ gap) v ++ (serObjRest gap (ind ++ gap) kvs
          ++ (closeChars gap ind '}' ++ rest))))
        = '"' :: (escapeStr k ++ ('"' :: (colonChars gap
          ++ (serVal gap (ind ++ gap) v ++ (serObjRest gap (ind ++ gap) kvs
            ++ (closeChars gap ind '}' ++ rest)))))) := by
      simp [quoteStr]
    rw [hshape]
    simp only [parseObjFirst]
    rw [skipWs_append (allWs_leadChars hi2), hqshape]
    rw [skipWs_not_ws (by decide)]
    obtain ⟨f3, rfl⟩ : ∃ f3, f2 = f3 + 1 := ⟨f2 - 1, by simp [sizeO] at hf; omega⟩
    have hsv : sizeV v ≤ f3 := by simp [sizeO] at hf; omega
    have hskvs : sizeO kvs ≤ f3 + 1 := by simp [sizeO] at hf; omega
    have hpm : parseMember (f3 + 1) (quoteStr k ++ (colonChars gap
        ++ (serVal gap (ind ++ gap) v ++ (serObjRest gap (ind ++ gap) kvs
          ++ (closeChars gap ind '}' ++ rest)))))
        = some ((k, v), serObjRest gap (ind ++ gap) kvs
            ++ (closeChars gap ind '}' ++ rest)) :=
      parseMember_round k v gap (ind ++ gap) _ f3
        (numStop_serObjRest gap (ind ++ gap) ind rest kvs)
        (fun rest2 f4 hr2 hf2 =>
          serVal_round v gap (ind ++ gap) rest2 f4 hg hi2 hr2 hfx.1 hf2) hsv
    have hpo : parseObjRest (f3 + 1) (serObjRest gap (ind ++ gap) kvs
        ++ (closeChars gap ind '}' ++ rest)) = some (kvs, rest) :=
      serObjRest_round kvs gap ind rest (f3 + 1) hg hi hr hfx.2 hskvs
    rw [hqshape] at hpm
    simp +decide [hpm, hpo]

def serObjRest_round : ∀ (kvs : JObj) (gap ind rest : List Char) (f : Nat),
    SpList gap → SpList ind → numStop rest = true → finO kvs = true → sizeO kvs ≤ f →
    parseObjRest f (serObjRest gap (ind ++ gap) kvs ++ (closeChars gap ind '}' ++ rest))
      = some (kvs, rest)
  | .nil, gap, ind, rest, f, hg, hi, hr, hfin, hf => by
    obtain ⟨f2, rfl⟩ : ∃ f2, f = f2 + 1 := ⟨f - 1, by simp [sizeO] at hf; omega⟩
    simp only [serObjRest, List.nil_append]
    simp only [parseObjRest]
    rw [skipWs_closeChars hi (by decide)]
    simp +decide
  | .cons k v kvs, gap, ind, rest, f, hg, hi, hr, hfin, hf => by
    obtain ⟨f2, rfl⟩ : ∃ f2, f = f2 + 1 := ⟨f - 1, by simp [sizeO] at hf; omega⟩
    have hi2 : SpList (ind ++ gap) := by
      intro c hc
      rcases List.mem_append.mp hc with h | h
      exacts [hi c h, hg c h]
    have hfx : finV v = true ∧ finO kvs = true := by
      simpa [finO, Bool.and_eq_true] using hfin
    have hshape : serObjRest gap (ind ++ gap) (.cons k v kvs)
          ++ (closeChars gap ind '}' ++ rest)
        = ',' :: (leadChars gap (ind ++ gap) ++ (quoteStr k ++ (colonChars gap
          ++ (serVal gap (ind ++ gap) v ++ (serObjRest gap (ind ++ gap) kvs
            ++ (closeChars gap ind '}' ++ rest)))))) := by
      simp [serObjRest, List.append_assoc]
    have hqshape : quoteStr k ++ (colonChars gap
        ++ (serVal gap (ind ++ gap) v ++ (serObjRest gap (ind ++ gap) kvs
          ++ (closeChars gap ind '}' ++ rest))))
        = '"' :: (escapeStr k ++ ('"' :: (colonChars gap
          ++ (serVal gap (ind ++ gap) v ++ (serObjRest gap (ind ++ gap) kvs
            ++ (closeChars gap ind '}' ++ rest)))))) := by
      simp [quoteStr]
    have hskip : skipWs (leadChars gap (ind ++ gap) ++ (quoteStr k ++ (colonChars gap
        ++ (serVal gap (ind ++ gap) v ++ (serObjRest gap (ind ++ gap) kvs
          ++ (closeChars gap ind '}' ++ rest))))))
        = quoteStr k ++ (colonChars gap
          ++ (serVal gap (ind ++ gap) v ++ (serObjRest gap (ind ++ gap) kvs
            ++ (closeChars gap ind '}' ++ rest)))) := by
      rw [skipWs_append (allWs_leadChars hi2), quoteStr, List.cons_append,
        skipWs_not_ws (by decide)]
    rw [hshape]
    simp only [parseObjRest]
    rw [skipWs_not_ws (by decide)]
    obtain ⟨f3, rfl⟩ : ∃ f3, f2 = f3 + 1 := ⟨f2 - 1, by simp [sizeO] at hf; omega⟩
    have hsv : sizeV v ≤ f3 := by simp [sizeO] at hf; omega
    have hskvs : sizeO kvs ≤ f3 + 1 := by simp [sizeO] at hf; omega
    have hpm : parseMember (f3 + 1) (quoteStr k ++ (colonChars gap
        ++ (serVal gap (ind ++ gap) v ++ (serObjRest gap (ind ++ gap) kvs
          ++ (closeChars gap ind '}' ++ rest)))))
        = some ((k, v), serObjRest gap (ind ++ gap) kvs
            ++ (closeChars gap ind '}' ++ rest)) :=
      parseMember_round k v gap (ind ++ gap) _ f3
        (numStop_serObjRest gap (ind ++ gap) ind rest kvs)
        (fun rest2 f4 hr2 hf2 =>
          serVal_round v gap (ind ++ gap) rest2 f4 hg hi2 hr2 hfx.1 hf2) hsv
    have hpo : parseObjRest (f3 + 1) (serObjRest gap (ind ++ gap) kvs
        ++ (closeChars gap ind '}' ++ rest)) = some (kvs, rest) :=
      serObjRest_round kvs gap ind rest (f3 + 1) hg hi hr hfx.2 hskvs
    simp +decide [hskip, hpm, hpo]

end

mutual

def sizeLenV : ∀ (v : JVal) (gap ind : List Char),
    sizeV v ≤ 2 * (serVal gap ind v).length
  | .null, gap, ind => by simp [sizeV, serVal]
  | .bool b, gap, ind => by cases b <;> simp [sizeV, serVal]
  | .num n, gap, ind => by
    cases n with
    | int i =>
      have h : 1 ≤ (intChars i).length := by
        rw [intChars]
        split
        · simp
        · rcases he : natChars i.toNat with _ | ⟨c, cs⟩
          · exact absurd he (natChars_ne_nil _)
          · simp
      simp only [sizeV, serVal, numChars]
      omega
    | nan => simp [sizeV, serVal, numChars]
    | posInf => simp [sizeV, serVal, numChars]
    | negInf => simp [sizeV, serVal, numChars]
  | .str s, gap, ind => by simp [sizeV, serVal, quoteStr]; omega
  | .arr a, gap, ind => by
    cases a with
    | nil => simp [sizeV, sizeA, serVal, serArr]
    | cons x xs =>
      have h1 := sizeLenV x gap (ind ++ gap)
      have h2 := sizeLenA xs gap (ind ++ gap)
      have h3 : 1 ≤ (closeChars gap ind ']').length := by
        rw [closeChars]; split <;> simp
      simp only [sizeV, sizeA, serVal, serArr, List.length_cons, List.length_append]
      omega
  | .obj o, gap, ind => by
    cases o with
    | nil => simp [sizeV, sizeO, serVal, serObj]
    | cons k v kvs =>
      have h1 := sizeLenV v gap (ind ++ gap)
      have h2 := sizeLenO kvs gap (ind ++ gap)
      have h3 : 1 ≤ (closeChars gap ind '}').length := by
        rw [closeChars]; split <;> simp
      have h4 : 1 ≤ (colonChars gap).length := by
        rw [colonChars]; split <;> simp
      simp only [sizeV, sizeO, serVal, serObj, quoteStr, List.length_cons,
        List.length_append]
      omega

def sizeLenA : ∀ (xs : JArr) (gap ind : List Char),
    sizeA xs ≤ 2 * (serArrRest gap ind xs).length + 1
  | .nil, gap, ind => by simp [sizeA, serArrRest]
  | .cons x xs, gap, ind => by
    have h1 := sizeLenV x gap ind
    have h2 := sizeLenA xs gap ind
    simp only [sizeA, serArrRest, List.length_cons, List.length_append]
    omega

def sizeLenO : ∀ (kvs : JObj) (gap ind : List Char),
    sizeO kvs ≤ 2 * (serObjRest gap ind kvs).length + 1
  | .nil, gap, ind => by simp [sizeO, serObjRest]
  | .cons k v kvs, gap, ind => by
    have h1 := sizeLenV v gap ind
    have h2 := sizeLenO kvs gap ind
    have h4 : 1 ≤ (colonChars gap).length := by
      rw [colonChars]; split <;> simp
    simp only [sizeO, serObjRest, quoteStr, List.length_cons, List.length_append]
    omega

end

/-- Round trip of the JSON codec of src/DataType/JSON.ts on values whose
numeric leaves are finite: JSON.parse recovers exactly the value that
JSON.stringify(value, null, 2) serialized. -/
theorem jsonParse_jsonEncode (v : JVal) (hfin : finV v = true) :
    jsonParse (jsonEncode v) = some v := by
  have hsp : SpList [' ', ' '] := fun c hc => by
    rcases List.mem_cons.mp hc with rfl | hc
    · rfl
    · rcases List.mem_cons.mp hc with rfl | hc
      · rfl
      · simp at hc
  have hemp : SpList ([] : List Char) := fun c hc => by simp at hc
  have hsize : sizeV v ≤ 2 * (jsonEncode v).length + 2 := by
    have := sizeLenV v [' ', ' '] []
    simp only [jsonEncode]
    omega
  have h := serVal_round v [' ', ' '] [] [] (2 * (jsonEncode v).length + 2)
    hsp hemp rfl hfin hsize
  rw [List.append_nil] at h
  rw [jsonParse, jsonEncode] at *
  rw [h]
  rfl

mutual

/-- The JSONSchema type of src/DataType/JSON.ts: a tagged variant with an
optional human-readable description on every case. -/
inductive JSchema where
  | null (description : Option String)
  | boolean (description : Option String)
  | number (description : Option String)
  | string (description : Option String)
  | array (elements : JSchema) (description : Option String)
  | object (properties : JProps) (description : Option String)
deriving DecidableEq, Repr

/-- The ordered property map of an object schema. -/
inductive JProps where
  | nil
  | cons (name : List Char) (schema : JSchema) (tl : JProps)
deriving DecidableEq, Repr

end

/-- JavaScript property read on an object value: the first (and in a real
JavaScript object, only) entry under the key. -/
def lookupJ : JObj → List Char → Option JVal
  | .nil, _ => none
  | .cons k v r, key => if k = key then some v else lookupJ r key

/-- Every element satisfies the predicate. -/
def arrAll (f : JVal → Bool) : JArr → Bool
  | .nil => true
  | .cons x xs => f x && arrAll f xs

mutual

/-- Conformance of a value to a JSONSchema under the type mapping JSONType
of src/DataType/JSON.ts: each leaf schema accepts exactly one primitive
kind, an array schema an array of conforming elements, an object schema an
object carrying a conforming value under every declared key (extra keys are
permitted, the mapping being structural). -/
def conformsJ : JSchema → JVal → Bool
  | .null _ => fun v => match v with | .null => true | _ => false
  | .boolean _ => fun v => match v with | .bool _ => true | _ => false
  | .number _ => fun v => match v with | .num _ => true | _ => false
  | .string _ => fun v => match v with | .str _ => true | _ => false
  | .array elements _ => fun v =>
    match v with
    | .arr xs => arrAll (conformsJ elements) xs
    | _ => false
  | .object properties _ => fun v =>
    match v with
    | .obj kvs => conformsProps properties kvs
    | _ => false

/-- Every declared property is present and conforming. -/
def conformsProps : JProps → JObj → Bool
  | .nil => fun _ => true
  | .cons k s rest => fun kvs =>
    (match lookupJ kvs k with
     | some v => conformsJ s v
     | none => false) && conformsProps rest kvs

end

/-- Decoder body of the plain string codec in src/IO/File.ts (`string`):
decode returns its input unchanged. -/
def stringCodecDecode (data : List Char) : List Char := data

/-- Encoder body of the plain string codec in src/IO/File.ts (`string`):
encode returns its input unchanged. -/
def stringCodecEncode (data : List Char) : List Char := data

mutual

/-- A JavaScript value as the YAML pipeline of unnamed part_008 sees one:
the JSON domain extended with undefined (absent property reads) and Date
objects (carried as a millisecond timestamp). -/
inductive YVal where
  | undefined
  | null
  | bool (b : Bool)
  | num (n : JSNum)
  | str (s : String)
  | date (ms : Int)
  | arr (xs : YArr)
  | obj (kvs : YObj)
deriving DecidableEq, Repr

/-- Elements of a YAML sequence value. -/
inductive YArr where
  | nil
  | cons (hd : YVal) (tl : YArr)
deriving DecidableEq, Repr

/-- Ordered properties of a YAML mapping value. -/
inductive YObj where
  | nil
  | cons (k : String) (v : YVal) (tl : YObj)
deriving DecidableEq, Repr

end

mutual

/-- The YAMLSchema type of unnamed part_008: JSONSchema plus a void case
and a YAML-specific native date case. -/
inductive YSchema where
  | void (description : Option String)
  | null (description : Option String)
  | boolean (description : Option String)
  | number (description : Option String)
  | string (description : Option String)
  | array (elements : YSchema) (description : Option String)
  | object (properties : YProps) (description : Option String)
  | date (description : Option String)
deriving DecidableEq, Repr

/-- The ordered property map of a YAML object schema. -/
inductive YProps where
  | nil
  | cons (name : String) (schema : YSchema) (tl : YProps)
deriving DecidableEq, Repr

end

/-- The JavaScript typeof operator on the `YVal` domain: null, dates,
arrays and plain objects all answer "object". -/
def typeofY : YVal → String
  | .undefined => "undefined"
  | .null => "object"
  | .bool _ => "boolean"
  | .num _ => "number"
  | .str _ => "string"
  | .date _ => "object"
  | .arr _ => "object"
  | .obj _ => "object"

/-- First entry under a key of a YAML mapping value. -/
def lookupY : YObj → String → Option YVal
  | .nil, _ => none
  | .cons k v r, key => if k = key then some v else lookupY r key

/-- Element read of a YAML sequence value. -/
def getElemY : YArr → Nat → YVal
  | .nil, _ => .undefined
  | .cons x _, 0 => x
  | .cons _ xs, n + 1 => getElemY xs n

/-- JavaScript property read data[key] as the validator of unnamed part_008
performs it: object lookup, canonical numeric-string indexing on arrays,
undefined everywhere else.  (Exotic array properties such as length are not
modelled; no schema in the repository names them.) -/
def getPropY (v : YVal) (key : String) : YVal :=
  match v with
  | .obj kvs =>
    match lookupY kvs key with
    | some x => x
    | none => .undefined
  | .arr xs =>
    match key.toNat? with
    | some i => if toString i = key then getElemY xs i else .undefined
    | none => .undefined
  | _ => .undefined

/-- The forEach loop of the array case of validateAgainstSchema: each
element is validated in order, and the first failure is rethrown with the
offending index prefixed to its message. -/
def validateElems (f : YVal → Except String Unit) : YArr → Nat → Except String Unit
  | .nil, _ => .ok ()
  | .cons x xs, i =>
    match f x with
    | .ok _ => validateElems f xs (i + 1)
    | .error m => .error ("Array item " ++ toString i ++ ": " ++ m)

mutual

/-- validateAgainstSchema of unnamed part_008 (the YAMLDecoder): a switch
on the schema tag, throwing "Expected X, got typeof" on a mismatched leaf,
wrapping array element failures with the element index, and recursing into
every declared object property without adding the key to the message. -/
def validateAgainstSchema : YSchema → YVal → Except String Unit
  | .void _ => fun v =>
    if v = .undefined then .ok () else .error ("Expected void, got " ++ typeofY v)
  | .null _ => fun v =>
    if v = .null then .ok () else .error ("Expected null, got " ++ typeofY v)
  | .boolean _ => fun v =>
    match v with
    | .bool _ => .ok ()
    | _ => .error ("Expected boolean, got " ++ typeofY v)
  | .number _ => fun v =>
    match v with
    | .num _ => .ok ()
    | _ => .error ("Expected number, got " ++ typeofY v)
  | .string _ => fun v =>
    match v with
    | .str _ => .ok ()
    | _ => .error ("Expected string, got " ++ typeofY v)
  | .date _ => fun v =>
    match v with
    | .date _ => .ok ()
    | _ => .error ("Expected Date, got " ++ typeofY v)
  | .array elements _ => fun v =>
    match v with
    | .arr xs => validateElems (validateAgainstSchema elements) xs 0
    | _ => .error ("Expected array, got " ++ typeofY v)
  | .object properties _ => fun v =>
    if typeofY v ≠ "object" ∨ v = .null then .error ("Expected object, got " ++ typeofY v)
    else validateProps properties v

/-- The Object.entries forEach of the object case: every declared property
is validated against the value read at its key; a failure propagates with
its message unchanged. -/
def validateProps : YProps → YVal → Except String Unit
  | .nil => fun _ => .ok ()
  | .cons k s rest => fun v =>
    match validateAgainstSchema s (getPropY v k) with
    | .ok _ => validateProps rest v
    | .error m => .error m

end

/-- Interface of the external YAML wire library (deno std yaml), an
out-of-scope collaborator the spec fixes only by its contract: parse turns
text into a value or fails, stringify renders a value.  The repository's
YAML codec is verified for every library meeting the round-trip contract. -/
structure YamlLib where
  parse : String → Except String YVal
  stringify : YVal → String

/-- YAMLDecoder.decode of unnamed part_008: parse the text, validate when a
schema was supplied, and wrap any failure in a YAML-parsing-failed error
(the try/catch around the whole body). -/
def yamlDecoderDecode (lib : YamlLib) (schema : Option YSchema) (data : String) :
    Except String YVal :=
  match lib.parse data with
  | .error m => .error ("YAML parsing failed: " ++ m)
  | .ok parsed =>
    match schema with
    | some s =>
      match validateAgainstSchema s parsed with
      | .ok _ => .ok parsed
      | .error m => .error ("YAML parsing failed: " ++ m)
    | none => .ok parsed

/-- YAMLEncoder.encode of unnamed part_008: delegate to the library
stringifier. -/
def yamlEncoderEncode (lib : YamlLib) (v : YVal) : String := lib.stringify v

deriving instance DecidableEq for Except

/-- C1 counterexample: NaN conforms to the number schema (it is a value of
the JavaScript number type, the domain JSONType assigns that schema), but
JSON.stringify serializes it as the text null, which parses back to the
null value, so decoding the encoding of NaN does not return NaN and the
round-trip law fails as stated. -/
theorem roundtrip_fails_on_nan :
    conformsJ (.number none) (.num .nan) = true
    ∧ jsonParse (jsonEncode (.num .nan)) = some .null
    ∧ jsonParse (jsonEncode (.num .nan)) ≠ some (.num .nan) := by
  refine ⟨by decide, by decide, by decide⟩

/-- C1 (amended): for every value conforming to the codec's bound schema
whose numeric leaves are finite, decoding the encoding returns the value
itself, for each registered codec family: the JSON codec of
src/DataType/JSON.ts, the plain string codec of src/IO/File.ts, and the
YAML codec of unnamed part_008 whenever the external YAML wire library
it delegates to meets its round-trip contract on the value (the spec keeps
concrete wire libraries out of scope, fixed only by that contract). -/
theorem codec_roundtrip :
    (∀ (s : JSchema) (v : JVal), conformsJ s v = true → finV v = true →
      jsonParse (jsonEncode v) = some v)
    ∧ (∀ s : List Char, stringCodecDecode (stringCodecEncode s) = s)
    ∧ (∀ (lib : YamlLib) (s : YSchema) (v : YVal),
        lib.parse (lib.stringify v) = .ok v →
        validateAgainstSchema s v = .ok () →
        yamlDecoderDecode lib (some s) (yamlEncoderEncode lib v) = .ok v) := by
  refine ⟨fun s v hc hf => jsonParse_jsonEncode v hf, fun s => rfl, fun lib s v hp hv => ?_⟩
  simp only [yamlEncoderEncode, yamlDecoderDecode, hp, hv]

/-- Concrete schema used by the round-trip witness. -/
def jsonSchemaW : JSchema :=
  .object (.cons ['a'] (.array (.string none) none) .nil) none

/-- Concrete conforming value used by the round-trip witness. -/
def jsonValW : JVal :=
  .obj (.cons ['a'] (.arr (.cons (.str ['h', 'i']) (.cons (.str []) .nil))) .nil)

/-- Degenerate YAML library used by the round-trip witness: it renders
every value as the empty text and parses every text as null, so it meets
the round-trip contract exactly at the null value. -/
def yamlLibW : YamlLib := ⟨fun _ => .ok .null, fun _ => ""⟩

/-- C1 witness: the round trip evaluated at one concrete member of each
codec family. -/
theorem codec_roundtrip_witness :
    (conformsJ jsonSchemaW jsonValW = true ∧ finV jsonValW = true
      ∧ jsonParse (jsonEncode jsonValW) = some jsonValW)
    ∧ stringCodecDecode (stringCodecEncode ['o', 'k']) = ['o', 'k']
    ∧ (yamlLibW.parse (yamlLibW.stringify .null) = .ok .null
      ∧ validateAgainstSchema (.null none) .null = .ok ()
      ∧ yamlDecoderDecode yamlLibW (some (.null none)) (yamlEncoderEncode yamlLibW .null)
          = .ok .null) :=
  ⟨⟨by decide, by decide, codec_roundtrip.1 jsonSchemaW jsonValW (by decide) (by decide)⟩,
   codec_roundtrip.2.1 ['o', 'k'],
   by decide, by decide,
   codec_roundtrip.2.2 yamlLibW (.null none) .null (by decide) (by decide)⟩

/-! ## Effects: shell invocation (src/Effect.ts, method $) -/

/-- Completed output of the spawned shell child: exit code and the decoded
stdout and stderr captures. -/
structure ShellOutput where
  code : Int
  stdout : String
  stderr : String

/-- Log entries emitted through the Effect's logger. -/
inductive LogEntry where
  | debug (message : String)
  | info (message : String)
  | warn (message : String)
  | error (message : String)
deriving DecidableEq, Repr

/-- Thrown JavaScript Error values, identified by their message, the only
payload `new Error(...)` is given anywhere in the sources. -/
structure JSError where
  message : String
deriving DecidableEq, Repr

/-- Model of Effect.$ (src/Effect.ts lines 15-40) from the point where the
child's output is in hand: on a non-zero exit code it logs one error-level
entry interpolating the code and the captured stderr, then throws
`new Error(stderr)`; on success it debug-logs every line of stdout whose
trimmed form is non-empty (JavaScript's `if (line.trim())` truthiness) and
resolves with the captured stdout. -/
def effectRunShell (out : ShellOutput) : List LogEntry × Except JSError String :=
  if out.code ≠ 0 then
    ([.error ("Command failed with exit code " ++ toString out.code ++ ": " ++ out.stderr)],
     .error ⟨out.stderr⟩)
  else
    (((out.stdout.splitOn "\n").filter (fun line => line.trim ≠ "")).map .debug,
     .ok out.stdout)

/-! ## The task registry (src/Lask.ts, method task) -/

/-- Decoded input passed to a task function: undefined is `none`. -/
def TaskInput : Type := Option JVal

/-- Registered input signature: optional schema and optional decoder. The
decoder is any function from raw text to a value or a thrown error, the
interface Decoder fixes (src/Lask.ts lines 57-66). -/
structure InputSignatureM where
  schema : Option JSchema
  decoder : Option (List Char → Except JSError JVal)

/-- Registered output signature: optional schema and optional encoder
(src/Lask.ts lines 68-77). -/
structure OutputSignatureM where
  schema : Option JSchema
  encoder : Option (JVal → List Char)

/-- Registered task signature: both halves optional (src/Lask.ts lines
79-90: `input?:`, `output?:`). -/
structure SignatureM where
  input : Option InputSignatureM
  output : Option OutputSignatureM

/-- One entry of this.tasks: the wrapped task function and its signature
(src/Lask.ts lines 166-169). -/
structure TaskEntry where
  func : Option JVal → Option JVal
  signature : SignatureM

/-- The Lask instance state: this.tasks, read only through property lookup
by name, so modelled as the lookup map. -/
structure Lask where
  tasks : String → Option TaskEntry

/-- Model of Lask.task (src/Lask.ts lines 153-171): property assignment
`this.tasks[name] = { func, signature }`, overwriting any entry the name
already had and leaving every other name's entry alone. -/
def Lask.task (l : Lask) (name : String) (signature : SignatureM)
    (handler : Option JVal → Option JVal) : Lask :=
  ⟨fun n => if n = name then some ⟨handler, signature⟩ else l.tasks n⟩

/-! ## The dispatcher handler (src/Lask.ts, method bite, lines 204-224) -/

/-- Lines 205-208: stdin is read in full only when it is not an interactive
terminal; on a terminal the raw input stays undefined and stdin is never
read. -/
def biteReadRaw (interactive : Bool) (stdinText : List Char) : Option (List Char) :=
  if interactive then none else some stdinText

/-- Lines 210-213: `task.signature.input?.decoder?.decode(input)`. With no
raw input the parsed input is undefined; with raw input in hand it is also
undefined when the optional chain finds no decoder, and otherwise the
decoder's result, a decoder throw propagating out. -/
def biteParseInput (sig : SignatureM) (input : Option (List Char)) :
    Except JSError (Option JVal) :=
  match input with
  | none => .ok none
  | some raw =>
    match sig.input.bind (fun i => i.decoder) with
    | none => .ok none
    | some d =>
      match d raw with
      | .ok v => .ok (some v)
      | .error e => .error e

/-- Lines 218-223: an undefined task result writes nothing; a defined one
is encoded by the registered encoder when the optional chain finds one and
by compact JSON.stringify otherwise (the ?? fallback), and the text handed
to console.log is the write. -/
def biteOutputPhase (sig : SignatureM) (output : Option JVal) : Option (List Char) :=
  match output with
  | none => none
  | some o =>
    some (match sig.output.bind (fun os => os.encoder) with
          | some e => e o
          | none => jsonStringifyCompact o)

/-- What one run of the per-task cmd-ts handler writes to stdout. -/
structure BiteResult where
  written : Option (List Char)

/-- The whole per-task handler (src/Lask.ts lines 204-224): read raw input,
parse it, run the task function on the parsed input, output phase; a
decoder throw aborts before the task function runs. -/
def biteHandler (sig : SignatureM) (interactive : Bool) (stdinText : List Char)
    (func : Option JVal → Option JVal) : Except JSError BiteResult :=
  match biteParseInput sig (biteReadRaw interactive stdinText) with
  | .error e => .error e
  | .ok parsed => .ok ⟨biteOutputPhase sig (func parsed)⟩

/-! ## The early dispatcher kept as src/unnamed/part_004 (method bite) -/

/-- Observable outcome of one part_004 bite run: error-level log entries,
the text written to stdout (if any), and the process exit code. -/
structure BiteRun where
  errorLogs : List String
  written : Option (List Char)
  exitCode : Nat
deriving DecidableEq, Repr

/-- Model of part_004 bite (lines 31-47): stdin is read unless interactive;
an unregistered name is reported with `Task not found: <name>` at error
level and bite returns normally, so the process exits with code 0 and
nothing is written; a registered task parses defined input with JSON.parse
(an uncaught parse throw exits with code 1), runs the task, and
console.logs the compact JSON.stringify of a defined result. -/
def bite004 (tasks : String → Option (Option JVal → Option JVal)) (taskName : String)
    (interactive : Bool) (stdinText : List Char) : BiteRun :=
  match tasks taskName with
  | some func =>
    match biteReadRaw interactive stdinText with
    | none =>
      match func none with
      | some o => ⟨[], some (jsonStringifyCompact o), 0⟩
      | none => ⟨[], none, 0⟩
    | some raw =>
      match jsonParse raw with
      | none => ⟨[], none, 1⟩
      | some v =>
        match func (some v) with
        | some o => ⟨[], some (jsonStringifyCompact o), 0⟩
        | none => ⟨[], none, 0⟩
  | none => ⟨["Task not found: " ++ taskName], none, 0⟩

/-- C3 counterexample: two shell runs that differ only in their non-zero
exit codes (2 and 3) throw literally the same error value, whose message is
exactly the captured stderr text; so the thrown error cannot carry the exit
code, contradicting the claimed ShellCommandError that carries both the
stderr text and the exit code. -/
theorem shell_error_lacks_exit_code :
    (effectRunShell (ShellOutput.mk 2 "" "boom")).2 = .error ⟨"boom"⟩
    ∧ (effectRunShell (ShellOutput.mk 3 "" "boom")).2
        = (effectRunShell (ShellOutput.mk 2 "" "boom")).2 := by
  decide

/-- C3 (amended): on any non-zero exit code the call logs exactly one
entry, an error-level entry interpolating the exit code and the captured
stderr, throws an error carrying the stderr text (and only that), and
emits no stdout-derived debug entries at all. -/
theorem shell_failure_logging (out : ShellOutput) (h : out.code ≠ 0) :
    (effectRunShell out).1
        = [LogEntry.error ("Command failed with exit code "
            ++ toString out.code ++ ": " ++ out.stderr)]
    ∧ (effectRunShell out).2 = Except.error ⟨out.stderr⟩
    ∧ ∀ m, LogEntry.debug m ∉ (effectRunShell out).1 := by
  have he : effectRunShell out
      = ([LogEntry.error ("Command failed with exit code "
            ++ toString out.code ++ ": " ++ out.stderr)],
         Except.error ⟨out.stderr⟩) := by
    simp only [effectRunShell, if_pos h]
  rw [he]
  exact ⟨rfl, rfl, by simp⟩

/-- C3 witness: the amended failure behaviour at exit code 2 with stderr
"boom" and a nonempty captured stdout. -/
theorem shell_failure_logging_witness :
    (effectRunShell (ShellOutput.mk 2 "hi\n" "boom")).1
        = [LogEntry.error ("Command failed with exit code "
            ++ toString (2 : Int) ++ ": " ++ "boom")]
    ∧ (effectRunShell (ShellOutput.mk 2 "hi\n" "boom")).2 = Except.error ⟨"boom"⟩
    ∧ ∀ m, LogEntry.debug m ∉ (effectRunShell (ShellOutput.mk 2 "hi\n" "boom")).1 :=
  shell_failure_logging (ShellOutput.mk 2 "hi\n" "boom") (by decide)

/-- C5: after two registrations under the same name, lookup of that name
finds exactly the later task and signature, and lookup of any other name is
unchanged. -/
theorem registry_last_wins (l : Lask) (name other : String) (s₁ s₂ : SignatureM)
    (h₁ h₂ : Option JVal → Option JVal) (hne : other ≠ name) :
    ((l.task name s₁ h₁).task name s₂ h₂).tasks name = some ⟨h₂, s₂⟩
    ∧ ((l.task name s₁ h₁).task name s₂ h₂).tasks other = l.tasks other := by
  refine ⟨?_, ?_⟩ <;> simp [Lask.task, hne]

/-- Task signature with neither input nor output half registered. -/
def sigNoCodec : SignatureM := ⟨none, none⟩

/-- Handler used as the overwritten first registration. -/
def handlerNilW : Option JVal → Option JVal := fun _ => none

/-- Handler used as the surviving second registration. -/
def handlerIdW : Option JVal → Option JVal := fun o => o

/-- Lask instance with an empty registry. -/
def laskEmptyW : Lask := ⟨fun _ => none⟩

/-- C5 witness: registering twice under "foo" on an empty registry leaves
the identity handler reachable and "bar" unregistered. -/
theorem registry_last_wins_witness :
    ((laskEmptyW.task "foo" sigNoCodec handlerNilW).task "foo" sigNoCodec handlerIdW).tasks "foo"
        = some ⟨handlerIdW, sigNoCodec⟩
    ∧ ((laskEmptyW.task "foo" sigNoCodec handlerNilW).task "foo" sigNoCodec handlerIdW).tasks "bar"
        = laskEmptyW.tasks "bar" :=
  registry_last_wins laskEmptyW "foo" "bar" sigNoCodec sigNoCodec
    handlerNilW handlerIdW (by decide)

/-- C2: for a task declaring an input binding (a registered decoder), an
interactive stdin makes the handler's outcome independent of whatever text
sits on stdin (stdin is never read), the task function receives the absent
sentinel `none`, and a non-interactive stdin is read in full with the
registered decoder applied to the whole text. -/
theorem interactive_input_skip (sig : SignatureM) (i : InputSignatureM)
    (d : List Char → Except JSError JVal)
    (hin : sig.input = some i) (hd : i.decoder = some d) :
    (∀ (t₁ t₂ : List Char) (func : Option JVal → Option JVal),
        biteHandler sig true t₁ func = biteHandler sig true t₂ func)
    ∧ (∀ (t : List Char) (func : Option JVal → Option JVal),
        biteHandler sig true t func = .ok ⟨biteOutputPhase sig (func none)⟩)
    ∧ (∀ t : List Char, biteParseInput sig (biteReadRaw false t) = (d t).map some) := by
  refine ⟨fun t₁ t₂ func => rfl, fun t func => rfl, fun t => ?_⟩
  simp only [biteReadRaw, Bool.false_eq_true, if_false, biteParseInput, hin, hd,
    Option.some_bind]
  cases hdt : d t <;> simp [Except.map]

/-- Decoder used by the interactive-skip witness: tags the raw text. -/
def decW : List Char → Except JSError JVal := fun s => .ok (.str s)

/-- Signature used by the interactive-skip witness: an input binding with a
registered decoder and no output half. -/
def sigDecW : SignatureM := ⟨some ⟨none, some decW⟩, none⟩

/-- C2 witness: with the concrete decoding signature, two interactive runs
on different stdin texts agree, the task function sees `none`, and a
non-interactive run decodes the full text. -/
theorem interactive_input_skip_witness :
    biteHandler sigDecW true ['a'] handlerIdW = biteHandler sigDecW true ['b'] handlerIdW
    ∧ biteHandler sigDecW true ['a'] handlerIdW
        = .ok ⟨biteOutputPhase sigDecW (handlerIdW none)⟩
    ∧ biteParseInput sigDecW (biteReadRaw false ['a']) = (decW ['a']).map some :=
  ⟨(interactive_input_skip sigDecW ⟨none, some decW⟩ decW rfl rfl).1 ['a'] ['b'] handlerIdW,
   (interactive_input_skip sigDecW ⟨none, some decW⟩ decW rfl rfl).2.1 ['a'] handlerIdW,
   (interactive_input_skip sigDecW ⟨none, some decW⟩ decW rfl rfl).2.2 ['a']⟩

/-- C9: when stdin is non-interactive but the optional decoder chain of the
resolved task finds no decoder, the raw text that was read is dropped: the
parsed input is `none` (undefined) whatever the text says, and the whole
handler behaves as if the task function had been called on `none`. -/
theorem missing_decoder_discards_input (sig : SignatureM)
    (hnd : sig.input.bind (fun i => i.decoder) = none) :
    ∀ (t : List Char) (func : Option JVal → Option JVal),
      biteParseInput sig (biteReadRaw false t) = .ok none
      ∧ biteHandler sig false t func = .ok ⟨biteOutputPhase sig (func none)⟩ := by
  intro t func
  have hp : biteParseInput sig (biteReadRaw false t) = .ok none := by
    simp only [biteReadRaw, Bool.false_eq_true, if_false, biteParseInput, hnd]
  exact ⟨hp, by simp only [biteHandler, hp]⟩

/-- Signature whose input binding is declared without a decoder. -/
def sigNoDecW : SignatureM := ⟨some ⟨none, none⟩, none⟩

/-- C9 witness: the raw text "r" is discarded when the input binding has no
decoder. -/
theorem missing_decoder_discards_input_witness :
    biteParseInput sigNoDecW (biteReadRaw false ['r']) = .ok none
    ∧ biteHandler sigNoDecW false ['r'] handlerIdW
        = .ok ⟨biteOutputPhase sigNoDecW (handlerIdW none)⟩ :=
  missing_decoder_discards_input sigNoDecW rfl ['r'] handlerIdW

/-- C10: when the optional encoder chain finds no encoder, a defined task
result is written as its compact JSON.stringify rendering (the ??
fallback), and an undefined result writes nothing at all. -/
theorem default_json_stringify_fallback (sig : SignatureM)
    (hne : sig.output.bind (fun os => os.encoder) = none) :
    (∀ v : JVal, biteOutputPhase sig (some v) = some (jsonStringifyCompact v))
    ∧ biteOutputPhase sig none = none := by
  refine ⟨fun v => ?_, rfl⟩
  simp only [biteOutputPhase, hne]

/-- C10 witness: the fallback evaluated on a task with no output half and
the defined result "hi". -/
theorem default_json_stringify_fallback_witness :
    biteOutputPhase sigNoCodec (some (JVal.str ['h', 'i']))
        = some (jsonStringifyCompact (JVal.str ['h', 'i']))
    ∧ biteOutputPhase sigNoCodec none = none :=
  ⟨(default_json_stringify_fallback sigNoCodec rfl).1 (JVal.str ['h', 'i']),
   (default_json_stringify_fallback sigNoCodec rfl).2⟩

/-- C6 counterexample: dispatching the unregistered name "foo" logs the
report and writes nothing, but the run ends with process exit code 0 — the
claimed non-zero exit does not happen, because part_004 bite returns
normally from its else branch. -/
theorem unknown_task_exits_zero :
    bite004 (fun _ => none) "foo" true [] = BiteRun.mk ["Task not found: foo"] none 0 := by
  decide

/-- C6 (amended): dispatching any name absent from the registry reports
exactly one error-level entry, "Task not found: " followed by the name,
writes nothing to stdout, and exits with code 0 (not the non-zero exit the
spec's taxonomy promises). -/
theorem unknown_task_reported (tasks : String → Option (Option JVal → Option JVal))
    (name : String) (interactive : Bool) (text : List Char)
    (h : tasks name = none) :
    bite004 tasks name interactive text = ⟨["Task not found: " ++ name], none, 0⟩ := by
  simp only [bite004, h]

/-- C6 witness: the unknown-task report at the name "nope" with
non-interactive stdin text. -/
theorem unknown_task_reported_witness :
    bite004 (fun _ => none) "nope" false ['x']
        = BiteRun.mk ["Task not found: " ++ "nope"] none 0 :=
  unknown_task_reported (fun _ => none) "nope" false ['x'] rfl

/-! ## Output-write ordering of part_003 bite (lines 177-182) -/

/-- Events of the output phase of one dispatch: a write being started for a
binding key, a write finishing, and the dispatch handler returning. -/
inductive WEv where
  | writeStart (key : String)
  | writeComplete (key : String)
  | dispatchDone
deriving DecidableEq, Repr

/-- One writeStart per output key, in declaration order. -/
def writeStarts : List String → List WEv
  | [] => []
  | k :: ks => WEv.writeStart k :: writeStarts ks

/-- Event order of the output phase of part_003 bite (lines 177-182):
`Object.keys(task.outputs).forEach(async (key) => { ... await writer.write(raw) })`
followed by the handler's return. Under JavaScript's run-to-completion
rule, forEach calls each async callback synchronously up to its first
await, which starts that key's write and suspends the callback; the loop
then moves to the next key without waiting, and after the loop the handler
returns, all before the event loop can run any write continuation. So the
trace is: every write started in declaration order, then the dispatch done,
then the write completions in whatever order the writers finish. -/
def part003OutputEvents (outputKeys completions : List String) : List WEv :=
  writeStarts outputKeys ++ WEv.dispatchDone :: completions.map WEv.writeComplete

/-! ## Dispatch phase ordering of part_003 bite (lines 162-183) -/

/-- Events of one whole dispatch: reading and decoding an input binding,
invoking the task function, its returned promise settling, and encoding
and starting the write of an output binding. -/
inductive DEv where
  | readInput (key : String)
  | decodeInput (key : String)
  | invokeHandler
  | handlerDone
  | encodeOutput (key : String)
  | writeStart (key : String)
deriving DecidableEq, Repr

/-- Input phase (part_003 lines 165-173): for each custom input key in
order, `const raw = await reader.read()` then
`inputs[key] = await decoder.decode(raw)`, each awaited before the loop
advances. -/
def inputPhase : List String → List DEv
  | [] => []
  | k :: ks => DEv.readInput k :: DEv.decodeInput k :: inputPhase ks

/-- Output phase (part_003 lines 177-182): for each output key in order,
`encoder.encode(data)` then the write is started. -/
def outputPhase : List String → List DEv
  | [] => []
  | k :: ks => DEv.encodeOutput k :: DEv.writeStart k :: outputPhase ks

/-- Event order of one part_003 dispatch (lines 162-183): the handler body
awaits every input read and decode, then `await task.func(...)` invokes the
task and waits for its promise to settle, and only then does the output
phase begin. -/
def dispatchTrace (inputKeys outputKeys : List String) : List DEv :=
  inputPhase inputKeys ++ DEv.invokeHandler :: DEv.handlerDone :: outputPhase outputKeys

/-- Input-phase events. -/
def DEv.isInput : DEv → Bool
  | .readInput _ => true
  | .decodeInput _ => true
  | _ => false

/-- Output-phase events. -/
def DEv.isOutput : DEv → Bool
  | .encodeOutput _ => true
  | .writeStart _ => true
  | _ => false

/-- Every event of the output phase is an output event. -/
theorem outputPhase_isOutput : ∀ (ks : List String) (e : DEv),
    e ∈ outputPhase ks → e.isOutput = true := by
  intro ks
  induction ks with
  | nil => intro e he; cases he
  | cons k ks ih =>
    intro e he
    rcases he with _ | ⟨_, he⟩
    · rfl
    · rcases he with _ | ⟨_, he⟩
      · rfl
      · exact ih e he

/-- Every position of a dispatch trace is an input event strictly inside
the input phase, the handler invocation right after it, the handler
settling right after that, or an output event after both. -/
theorem dispatchTrace_cases : ∀ (ins outs : List String) (m : Nat)
    (hm : m < (dispatchTrace ins outs).length),
    (m < (inputPhase ins).length ∧ ((dispatchTrace ins outs)[m]).isInput = true)
    ∨ (m = (inputPhase ins).length ∧ (dispatchTrace ins outs)[m] = DEv.invokeHandler)
    ∨ (m = (inputPhase ins).length + 1 ∧ (dispatchTrace ins outs)[m] = DEv.handlerDone)
    ∨ ((inputPhase ins).length + 2 ≤ m ∧ ((dispatchTrace ins outs)[m]).isOutput = true) := by
  intro ins
  induction ins with
  | nil =>
    intro outs m hm
    match m with
    | 0 => exact Or.inr (Or.inl ⟨rfl, rfl⟩)
    | 1 => exact Or.inr (Or.inr (Or.inl ⟨rfl, rfl⟩))
    | m + 2 =>
      refine Or.inr (Or.inr (Or.inr ⟨by simp [inputPhase], ?_⟩))
      have hm2 : m < (outputPhase outs).length := by
        simpa [dispatchTrace, inputPhase] using hm
      have he : (dispatchTrace [] outs)[m + 2] = (outputPhase outs)[m] := by
        simp [dispatchTrace, inputPhase]
      rw [he]
      exact outputPhase_isOutput outs _ (List.getElem_mem hm2)
  | cons k ins ih =>
    intro outs m hm
    have hsh : dispatchTrace (k :: ins) outs
        = DEv.readInput k :: DEv.decodeInput k :: dispatchTrace ins outs := rfl
    match m with
    | 0 => exact Or.inl ⟨by simp [inputPhase], rfl⟩
    | 1 => exact Or.inl ⟨by simp [inputPhase], rfl⟩
    | m + 2 =>
      have hm2 : m < (dispatchTrace ins outs).length := by
        have := hm
        rw [hsh] at this
        simpa using this
      have he : (dispatchTrace (k :: ins) outs)[m + 2] = (dispatchTrace ins outs)[m] := by
        simp [dispatchTrace, inputPhase]
      have hlen : (inputPhase (k :: ins)).length = (inputPhase ins).length + 2 := by
        simp [inputPhase]
      rcases ih outs m hm2 with ⟨h1, h2⟩ | ⟨h1, h2⟩ | ⟨h1, h2⟩ | ⟨h1, h2⟩
      · exact Or.inl ⟨by omega, by rw [he]; exact h2⟩
      · exact Or.inr (Or.inl ⟨by omega, by rw [he]; exact h2⟩)
      · exact Or.inr (Or.inr (Or.inl ⟨by omega, by rw [he]; exact h2⟩))
      · exact Or.inr (Or.inr (Or.inr ⟨by omega, by rw [he]; exact h2⟩))

/-- C8: in every dispatch trace, every input read or decode event precedes
the handler invocation, and every output encode or write-start event comes
after the handler's promise has settled. -/
theorem dispatch_phase_ordering (ins outs : List String) (i j : Nat)
    (hi : i < (dispatchTrace ins outs).length) (hj : j < (dispatchTrace ins outs).length) :
    (((dispatchTrace ins outs)[i]).isInput = true →
        (dispatchTrace ins outs)[j] = DEv.invokeHandler → i < j)
    ∧ (((dispatchTrace ins outs)[i]).isOutput = true →
        (dispatchTrace ins outs)[j] = DEv.handlerDone → j < i) := by
  have hnio : ∀ e : DEv, e.isInput = true → e.isOutput = true → False := by
    intro e h1 h2
    cases e <;> simp [DEv.isInput, DEv.isOutput] at h1 h2
  constructor
  · intro hin hinv
    have hci := dispatchTrace_cases ins outs i hi
    have hcj := dispatchTrace_cases ins outs j hj
    rcases hci with ⟨h1, _⟩ | ⟨_, h2⟩ | ⟨_, h2⟩ | ⟨_, h2⟩
    · rcases hcj with ⟨_, h4⟩ | ⟨h3, _⟩ | ⟨_, h4⟩ | ⟨_, h4⟩
      · rw [hinv] at h4; cases h4
      · omega
      · rw [hinv] at h4; cases h4
      · rw [hinv] at h4; cases h4
    · rw [h2] at hin; cases hin
    · rw [h2] at hin; cases hin
    · exact absurd h2 (fun h2 => hnio _ hin h2)
  · intro hout hdone
    have hci := dispatchTrace_cases ins outs i hi
    have hcj := dispatchTrace_cases ins outs j hj
    rcases hci with ⟨_, h2⟩ | ⟨_, h2⟩ | ⟨_, h2⟩ | ⟨h1, h2⟩
    · exact absurd hout (fun ho => hnio _ h2 ho)
    · rw [h2] at hout; cases hout
    · rw [h2] at hout; cases hout
    · rcases hcj with ⟨_, h4⟩ | ⟨_, h4⟩ | ⟨h3, _⟩ | ⟨_, h4⟩
      · exact absurd h4 (fun h4 => hnio _ h4 (by rw [hdone] at h4; cases h4))
      · rw [hdone] at h4; cases h4
      · omega
      · rw [hdone] at h4; cases h4

/-- C8 witness: the ordering evaluated on the one-input one-output trace
at the decode event against the invocation, and the encode event against
the handler settling. -/
theorem dispatch_phase_ordering_witness :
    ((dispatchTrace ["a"] ["b"]).get ⟨1, by decide⟩).isInput = true
    ∧ (dispatchTrace ["a"] ["b"]).get ⟨2, by decide⟩ = DEv.invokeHandler
    ∧ (1 : Nat) < 2
    ∧ ((dispatchTrace ["a"] ["b"]).get ⟨4, by decide⟩).isOutput = true
    ∧ (dispatchTrace ["a"] ["b"]).get ⟨3, by decide⟩ = DEv.handlerDone
    ∧ (3 : Nat) < 4 :=
  ⟨by decide, by decide,
   (dispatch_phase_ordering ["a"] ["b"] 1 2 (by decide) (by decide)).1 (by decide) (by decide),
   by decide, by decide,
   (dispatch_phase_ordering ["a"] ["b"] 4 3 (by decide) (by decide)).2 (by decide) (by decide)⟩

/-- C4: the concrete two-output dispatch trace. Both writes are started in
declaration order, but the dispatch is done before either write completes:
the claimed await of each write before the next (and of all writes before
the dispatch is done) does not hold, however the writers are scheduled. -/
theorem outputs_not_awaited :
    part003OutputEvents ["o1", "o2"] ["o1", "o2"]
      = [WEv.writeStart "o1", WEv.writeStart "o2", WEv.dispatchDone,
         WEv.writeComplete "o1", WEv.writeComplete "o2"] := rfl

/-- Build a YAML sequence value from a list of elements. -/
def yarrOfList : List YVal → YArr
  | [] => .nil
  | x :: xs => .cons x (yarrOfList xs)

/-- Number values of the YVal domain. -/
def YVal.isNum : YVal → Bool
  | .num _ => true
  | _ => false

/-- Element validation fails at the first offending element, prefixing the
index counted from the loop's start. -/
theorem validateElems_first_error (f : YVal → Except String Unit) (x : YVal)
    (post : List YVal) (m : String) :
    ∀ (pre : List YVal) (i : Nat), (∀ y ∈ pre, f y = .ok ()) → f x = .error m →
    validateElems f (yarrOfList (pre ++ x :: post)) i
      = .error ("Array item " ++ toString (i + pre.length) ++ ": " ++ m) := by
  intro pre
  induction pre with
  | nil =>
    intro i hok hx
    simp only [List.nil_append, yarrOfList, validateElems, hx, List.length_nil, Nat.add_zero]
  | cons y pre ih =>
    intro i hok hx
    have hy : f y = .ok () := hok y (List.mem_cons_self y pre)
    simp only [List.cons_append, yarrOfList, validateElems, hy, List.append_eq]
    rw [ih (i + 1) (fun z hz => hok z (List.mem_cons_of_mem y hz)) hx]
    have harith : i + 1 + pre.length = i + (y :: pre).length := by
      simp only [List.length_cons]
      omega
    rw [harith]

/-- C7 counterexample: moving the sole offending property from key "a" to
key "b" leaves the validation error literally identical, "Expected number,
got string", so the error cannot report the offending object key — the
object case of validateAgainstSchema rethrows the inner failure without
adding the key, unlike the array case. -/
theorem validation_object_key_unreported :
    validateAgainstSchema (.object (.cons "a" (.number none) .nil) none)
        (.obj (.cons "a" (.str "x") .nil))
      = .error "Expected number, got string"
    ∧ validateAgainstSchema (.object (.cons "b" (.number none) .nil) none)
        (.obj (.cons "b" (.str "x") .nil))
      = .error "Expected number, got string" := by
  decide

/-- C7 (amended): what validation errors actually report. An array whose
first offence sits after a prefix of conforming elements fails with that
element's index prefixed to the inner message; an object whose first
declared property fails rethrows the inner message unchanged, without the
key; and a mismatched number leaf reports the expected kind and the typeof
of the found value. -/
theorem validation_error_reporting :
    (∀ (E : YSchema) (dd : Option String) (pre : List YVal) (x : YVal) (post : List YVal)
        (m : String), (∀ y ∈ pre, validateAgainstSchema E y = .ok ()) →
        validateAgainstSchema E x = .error m →
        validateAgainstSchema (.array E dd) (.arr (yarrOfList (pre ++ x :: post)))
          = .error ("Array item " ++ toString pre.length ++ ": " ++ m))
    ∧ (∀ (k : String) (s : YSchema) (rest : YProps) (dd : Option String) (v : YVal)
        (m : String), typeofY v = "object" → v ≠ .null →
        validateAgainstSchema s (getPropY v k) = .error m →
        validateAgainstSchema (.object (.cons k s rest) dd) v = .error m)
    ∧ (∀ (v : YVal) (dd : Option String), YVal.isNum v = false →
        validateAgainstSchema (.number dd) v
          = .error ("Expected number, got " ++ typeofY v)) := by
  refine ⟨fun E dd pre x post m hok hx => ?_, fun k s rest dd v m hobj hnn hfail => ?_,
    fun v dd hnum => ?_⟩
  · simp only [validateAgainstSchema]
    rw [validateElems_first_error (validateAgainstSchema E) x post m pre 0 hok hx]
    simp only [Nat.zero_add]
  · simp only [validateAgainstSchema]
    rw [if_neg (by simp [hobj, hnn])]
    simp only [validateProps, hfail]
  · cases v <;> first | rfl | simp [YVal.isNum] at hnum

/-- C7 witness: the reporting shapes at concrete offending values — index 1
of a number array holding a string, a one-property object whose boolean
property holds a string, and a bare string against the number schema. -/
theorem validation_error_reporting_witness :
    validateAgainstSchema (.array (.number none) none)
        (.arr (yarrOfList [.num (.int 1), .str "x"]))
      = .error ("Array item " ++ toString ([YVal.num (.int 1)].length)
          ++ ": " ++ "Expected number, got string")
    ∧ validateAgainstSchema (.object (.cons "a" (.boolean none) .nil) none)
        (.obj (.cons "a" (.str "x") .nil))
      = .error "Expected boolean, got string"
    ∧ validateAgainstSchema (.number none) (.str "x")
      = .error ("Expected number, got " ++ typeofY (.str "x")) :=
  ⟨validation_error_reporting.1 (.number none) none [.num (.int 1)] (.str "x") []
      "Expected number, got string" (by decide) (by decide),
   validation_error_reporting.2.1 "a" (.boolean none) .nil none
      (.obj (.cons "a" (.str "x") .nil)) "Expected boolean, got string"
      (by decide) (by decide) (by decide),
   validation_error_reporting.2.2 (.str "x") none (by decide)⟩
